import Mathlib

/-!
Verification of the podcast-downloader naming, sanitization, download
orchestration and manifest logic, as a shallow embedding of
src/podcast_downloader/downloader.py.  Python strings are modelled as
List Char, Python ints as Nat/Int, the filesystem and network as explicit
state / oracle values.
-/

namespace PodcastDL

/-! ## Character classes

Python regex classes used by the source:
  r'[\\/:*?"<>|]'  (characters illegal in filenames),
  r'\s'            (whitespace; modelled by Char.isWhitespace),
  r'\w'            (word characters; modelled as alphanumeric or underscore;
                    the unicode extension of \w and of str.lower/str.isdigit
                    is approximated by the ASCII behaviour of Char).
-/

def illegalChar (c : Char) : Bool :=
  c = '\\' || c = '/' || c = ':' || c = '*' || c = '?' || c = '\"' ||
  c = '<' || c = '>' || c = '|'

def wordChar (c : Char) : Bool :=
  c.isAlphanum || c = '_'

/-- Python str.isdigit: nonempty and all characters digits. -/
def pyIsDigit (w : List Char) : Bool :=
  !w.isEmpty && w.all Char.isDigit

/-! ## List-of-char utilities mirroring Python string operations -/

/-- Python str.split(sep) for a single-character separator:
"a__b".split("_") = ["a", "", "b"], "".split("_") = [""]. -/
def splitChar (sep : Char) : List Char → List (List Char)
  | [] => [[]]
  | c :: cs =>
    if c = sep then [] :: splitChar sep cs
    else
      match splitChar sep cs with
      | w :: ws => (c :: w) :: ws
      | [] => [[c]]

/-- Python sep.join(words) for a single-character separator. -/
def pyJoin (sep : Char) : List (List Char) → List Char
  | [] => []
  | [w] => w
  | w :: x :: xs => w ++ sep :: pyJoin sep (x :: xs)

/-- re.sub of a maximal run of characters satisfying p by the single
character r (models re.sub of a one-class-plus pattern). -/
def squashRuns (p : Char → Bool) (r : Char) : List Char → List Char
  | [] => []
  | [c] => if p c then [r] else [c]
  | c :: d :: cs =>
    if p c then
      if p d then squashRuns p r (d :: cs)
      else r :: squashRuns p r (d :: cs)
    else c :: squashRuns p r (d :: cs)

/-- Python str.strip(chars-satisfying-p): drop characters satisfying p from
both ends. -/
def pyStrip (p : Char → Bool) (l : List Char) : List Char :=
  ((l.dropWhile p).reverse.dropWhile p).reverse

/-- True when l has no adjacent pair (a, b). -/
def adjFree (a b : Char) : List Char → Bool
  | x :: y :: rest => !(x == a && y == b) && adjFree a b (y :: rest)
  | _ => true

/-! ## Decimal rendering (Python str(n) and zero-padded format) -/

/-- Fuel-driven helper for pyNatStr (structural recursion so that concrete
values reduce definitionally; the fuel never runs out when it starts at n). -/
def pyNatStrAux : Nat → Nat → List Char
  | 0, n => [Nat.digitChar n]
  | fuel + 1, n =>
    if n < 10 then [Nat.digitChar n]
    else pyNatStrAux fuel (n / 10) ++ [Nat.digitChar (n % 10)]

/-- Python str(n) for a non-negative int: big-endian decimal digits. -/
def pyNatStr (n : Nat) : List Char :=
  pyNatStrAux n n

/-- Python format spec 0{w}d: left-pad str(n) with zeros to width w
(no truncation when str(n) is longer). -/
def pyZFill (w : Nat) (n : Nat) : List Char :=
  List.replicate (w - (pyNatStr n).length) '0' ++ pyNatStr n

/-- The low w decimal digits of n, big-endian (proof vehicle: it equals
pyZFill w n when n < 10^w and 1 ≤ w). -/
def padDigits : Nat → Nat → List Nat
  | 0, _ => []
  | w + 1, n => padDigits w (n / 10) ++ [n % 10]

def padChars (w n : Nat) : List Char :=
  (padDigits w n).map Nat.digitChar

/-! ## TitleShortener (class TitleShortener in the source) -/

/-- STOP_WORDS from the source (multilingual list, all lowercase). -/
def stopWords : List String :=
  ["le", "la", "les", "de", "du", "des", "un", "une", "et", "en", "au", "aux",
   "ce", "cette", "ces", "son", "sa", "ses", "mon", "ma", "mes", "ton", "ta",
   "tes", "notre", "nos", "votre", "vos", "leur", "leurs", "qui", "que", "quoi",
   "dont", "où", "pour", "par", "sur", "sous", "avec", "sans", "dans", "est",
   "the", "a", "an", "of", "to", "and", "in", "on", "at", "for", "with",
   "is", "are", "was", "were", "be", "been", "being", "have", "has", "had",
   "do", "does", "did", "will", "would", "could", "should", "may", "might",
   "this", "that", "these", "those", "it", "its"]

/-- TitleShortener._clean_title.  The optional unidecode folding is modelled
as unavailable (the source supports unidecode = None). Steps:
remove characters outside [\w\s-]; replace whitespace runs by '_';
strip leading/trailing '_'; collapse '_' runs. -/
def cleanTitle (title : List Char) : List Char :=
  let kept := title.filter (fun c => wordChar c || c.isWhitespace || c = '-')
  let us := squashRuns Char.isWhitespace '_' kept
  let stripped := pyStrip (fun c => c = '_') us
  squashRuns (fun c => c = '_') '_' stripped

/-- TitleShortener._remove_stop_words. -/
def removeStopWords (title : List Char) : List Char :=
  let words := splitChar '_' title
  let filtered := words.filter
    (fun w => !(stopWords.contains (String.mk (w.map Char.toLower))) || pyIsDigit w)
  if filtered.isEmpty then title else pyJoin '_' filtered

/-- TitleShortener._abbreviate_words. -/
def abbreviateWords (title : List Char) (minWordLength keepChars : Nat) : List Char :=
  let words := splitChar '_' title
  pyJoin '_' (words.map
    (fun w => if minWordLength < w.length && !pyIsDigit w then w.take keepChars else w))

/-- The greedy word-accumulation loop of _truncate_at_word_boundary. -/
def truncGreedy (maxLength : Nat) : List (List Char) → List (List Char) → Nat → List (List Char)
  | [], acc, _ => acc
  | w :: ws, acc, curLen =>
    let newLen := curLen + w.length + (if acc.isEmpty then 0 else 1)
    if newLen ≤ maxLength then truncGreedy maxLength ws (acc ++ [w]) newLen
    else acc

/-- TitleShortener._truncate_at_word_boundary. -/
def truncateAtWordBoundary (title : List Char) (maxLength : Nat) : List Char :=
  if title.length ≤ maxLength then title
  else
    let r := truncGreedy maxLength (splitChar '_' title) [] 0
    if r.isEmpty then title.take maxLength else pyJoin '_' r

/-- TitleShortener.shorten.  available is a Python int (may be negative),
hence Int; max_length and prefix_length are non-negative. -/
def shorten (maxLength : Nat) (title : List Char) (prefixLength : Nat) : List Char :=
  let available : Int := (maxLength : Int) - (prefixLength : Int) - 4
  if available ≤ 0 then []
  else
    let av := available.toNat
    let cleaned := cleanTitle title
    if cleaned.length ≤ av then cleaned
    else
      let s1 := removeStopWords cleaned
      if s1.length ≤ av then s1
      else
        let s2 := abbreviateWords s1 6 4
        if s2.length ≤ av then s2
        else
          let s3 := abbreviateWords s2 5 3
          if s3.length ≤ av then s3
          else truncateAtWordBoundary s3 av

/-! ## Default (no length limit) cleaning paths -/

/-- The default cleaning used by download_episode and save_index when no
max_filename_length is configured: remove illegal characters, replace
whitespace runs by '_', then Python str.strip() (which strips whitespace
only, hence is a no-op after the substitution). -/
def defaultCleanTitle (title : List Char) : List Char :=
  pyStrip Char.isWhitespace
    (squashRuns Char.isWhitespace '_' (title.filter (fun c => !illegalChar c)))

/-- get_podcast_name, default branch: default cleaning then truncation
to 100 characters. -/
def getPodcastNameDefault (title : List Char) : List Char :=
  (defaultCleanTitle title).take 100

/-- get_podcast_name when a max_filename_length is configured: the strategy
chain over the full budget (no prefix, no extension). -/
def getPodcastNameShort (maxFilenameLength : Nat) (title : List Char) : List Char :=
  let s0 := cleanTitle title
  let s1 := if maxFilenameLength < s0.length then removeStopWords s0 else s0
  let s2 := if maxFilenameLength < s1.length then abbreviateWords s1 6 4 else s1
  if maxFilenameLength < s2.length then truncateAtWordBoundary s2 maxFilenameLength else s2

/-! ## Naming engine (PodcastDownloader._get_index_width, _get_batch_folder,
and the filename assembly in download_episode). -/

/-- PodcastDownloader._get_index_width. -/
def getIndexWidth (count : Nat) : Nat :=
  if count ≤ 9 then 1 else if count ≤ 99 then 2 else 3

/-- Batch number for an ordinal: (index - 1) // 100. -/
def batchNumber (index : Nat) : Nat := (index - 1) / 100

/-- PodcastDownloader._get_batch_folder (directory name relative to the
output directory). -/
def batchFolderName (podcastName : List Char) (index total : Nat) : List Char :=
  if total ≤ 100 then podcastName
  else pyNatStr (batchNumber index) ++ '_' :: podcastName

/-- The display index computed in download_episode. -/
def displayIndex (index total : Nat) : Nat :=
  if total ≤ 100 then index else (index - 1) % 100

/-- The zero-pad width used in download_episode. -/
def fileIndexWidth (total : Nat) : Nat :=
  if total ≤ 100 then getIndexWidth total else 2

/-- The safe-title portion of the filename: TitleShortener.shorten when a
max_filename_length is configured, else the default cleaning. -/
def safeTitlePart (maxFilenameLength : Option Nat) (title : List Char)
    (prefixLength : Nat) : List Char :=
  match maxFilenameLength with
  | some m => shorten m title prefixLength
  | none => defaultCleanTitle title

/-- The filename assembled in download_episode:
zero-padded display index, underscore, safe title, ".mp3". -/
def episodeFilename (maxFilenameLength : Option Nat) (title : List Char)
    (index total : Nat) : List Char :=
  let w := fileIndexWidth total
  let d := displayIndex index total
  let pfx := pyZFill w d ++ ['_']
  pfx ++ safeTitlePart maxFilenameLength title pfx.length ++ ".mp3".data

/-! ## Decimal rendering lemmas -/

theorem pyNatStrAux_irrel : ∀ f1 f2 n, n ≤ f1 → n ≤ f2 →
    pyNatStrAux f1 n = pyNatStrAux f2 n := by
  intro f1
  induction f1 with
  | zero =>
    intro f2 n h1 _
    have hn : n = 0 := Nat.le_zero.mp h1
    subst hn
    cases f2 with
    | zero => rfl
    | succ g => simp [pyNatStrAux]
  | succ f ih =>
    intro f2 n h1 h2
    cases f2 with
    | zero =>
      have hn : n = 0 := Nat.le_zero.mp h2
      subst hn
      simp [pyNatStrAux]
    | succ g =>
      by_cases hn : n < 10
      · simp [pyNatStrAux, hn]
      · have hdiv : n / 10 < n := Nat.div_lt_self (by omega) (by norm_num)
        simp only [pyNatStrAux, if_neg hn]
        rw [ih g (n / 10) (by omega) (by omega)]

theorem pyNatStr_lt10 (n : Nat) (h : n < 10) : pyNatStr n = [Nat.digitChar n] := by
  unfold pyNatStr
  cases n with
  | zero => rfl
  | succ k => simp [pyNatStrAux, h]

theorem pyNatStr_ge10 (n : Nat) (h : 10 ≤ n) :
    pyNatStr n = pyNatStr (n / 10) ++ [Nat.digitChar (n % 10)] := by
  obtain ⟨k, hk⟩ : ∃ k, n = k + 1 := ⟨n - 1, by omega⟩
  subst hk
  have hdiv : (k + 1) / 10 < k + 1 := Nat.div_lt_self (by omega) (by norm_num)
  show pyNatStrAux (k + 1) (k + 1) = _
  simp only [pyNatStrAux, if_neg (by omega : ¬ k + 1 < 10)]
  rw [pyNatStrAux_irrel k ((k + 1) / 10) ((k + 1) / 10) (by omega) (by omega)]
  rfl

theorem pyNatStr_ne_nil (n : Nat) : pyNatStr n ≠ [] := by
  by_cases h : n < 10
  · rw [pyNatStr_lt10 n h]; simp
  · rw [pyNatStr_ge10 n (by omega)]; simp

theorem pyNatStr_length_le : ∀ w n, 1 ≤ w → n < 10 ^ w → (pyNatStr n).length ≤ w := by
  intro w
  induction w with
  | zero => intro n h; omega
  | succ v ih =>
    intro n _ hn
    by_cases h10 : n < 10
    · rw [pyNatStr_lt10 n h10]; simp
    · have hv : 1 ≤ v := by
        by_contra hv
        have : v = 0 := by omega
        subst this
        simp [pow_succ, pow_zero] at hn
        omega
      have hdiv : n / 10 < 10 ^ v := by
        rw [Nat.div_lt_iff_lt_mul (by norm_num)]
        calc n < 10 ^ (v + 1) := hn
        _ = 10 ^ v * 10 := by rw [pow_succ]
      rw [pyNatStr_ge10 n (by omega)]
      simp only [List.length_append, List.length_cons, List.length_nil]
      have := ih (n / 10) hv hdiv
      omega

theorem pyNatStr_length_ge : ∀ w n, 10 ^ w ≤ n → w + 1 ≤ (pyNatStr n).length := by
  intro w
  induction w with
  | zero =>
    intro n _
    have := pyNatStr_ne_nil n
    cases h : pyNatStr n with
    | nil => exact absurd h this
    | cons a l => simp
  | succ v ih =>
    intro n hn
    have h10 : 10 ≤ n := by
      have h1 : (1 : Nat) ≤ 10 ^ v := Nat.one_le_pow _ _ (by norm_num)
      have : 10 ^ (v + 1) = 10 ^ v * 10 := by rw [pow_succ]
      omega
    have hdiv : 10 ^ v ≤ n / 10 := by
      rw [Nat.le_div_iff_mul_le (by norm_num)]
      calc 10 ^ v * 10 = 10 ^ (v + 1) := by rw [pow_succ]
      _ ≤ n := hn
    rw [pyNatStr_ge10 n h10]
    simp only [List.length_append, List.length_cons, List.length_nil]
    have := ih (n / 10) hdiv
    omega

theorem padDigits_length : ∀ w n, (padDigits w n).length = w := by
  intro w
  induction w with
  | zero => intro n; rfl
  | succ v ih => intro n; simp [padDigits, ih]

theorem padChars_length (w n : Nat) : (padChars w n).length = w := by
  simp [padChars, padDigits_length]

theorem padDigits_all_lt10 : ∀ w n d, d ∈ padDigits w n → d < 10 := by
  intro w
  induction w with
  | zero => intro n d h; simp [padDigits] at h
  | succ v ih =>
    intro n d h
    simp only [padDigits, List.mem_append, List.mem_singleton] at h
    rcases h with h | h
    · exact ih _ _ h
    · subst h; exact Nat.mod_lt _ (by norm_num)

theorem padDigits_cons0 : ∀ w n, n < 10 ^ w → padDigits (w + 1) n = 0 :: padDigits w n := by
  intro w
  induction w with
  | zero =>
    intro n hn
    have : n = 0 := by simpa using hn
    subst this
    rfl
  | succ v ih =>
    intro n hn
    have hdiv : n / 10 < 10 ^ v := by
      rw [Nat.div_lt_iff_lt_mul (by norm_num)]
      calc n < 10 ^ (v + 1) := hn
      _ = 10 ^ v * 10 := by rw [pow_succ]
    show padDigits (v + 1) (n / 10) ++ [n % 10] = 0 :: padDigits (v + 1) n
    rw [ih _ hdiv]
    rfl

theorem pyNatStr_eq_padChars : ∀ w n, 10 ^ w ≤ n → n < 10 ^ (w + 1) →
    pyNatStr n = padChars (w + 1) n := by
  intro w
  induction w with
  | zero =>
    intro n h1 h2
    have h2' : n < 10 := by simpa using h2
    rw [pyNatStr_lt10 n h2']
    show _ = (padDigits 0 (n / 10) ++ [n % 10]).map Nat.digitChar
    simp [padDigits, Nat.mod_eq_of_lt h2']
  | succ v ih =>
    intro n h1 h2
    have h10 : 10 ≤ n := by
      have hone : (1 : Nat) ≤ 10 ^ v := Nat.one_le_pow _ _ (by norm_num)
      have : 10 ^ (v + 1) = 10 ^ v * 10 := by rw [pow_succ]
      omega
    have hd1 : 10 ^ v ≤ n / 10 := by
      rw [Nat.le_div_iff_mul_le (by norm_num)]
      calc 10 ^ v * 10 = 10 ^ (v + 1) := by rw [pow_succ]
      _ ≤ n := h1
    have hd2 : n / 10 < 10 ^ (v + 1) := by
      rw [Nat.div_lt_iff_lt_mul (by norm_num)]
      calc n < 10 ^ (v + 2) := h2
      _ = 10 ^ (v + 1) * 10 := by rw [pow_succ]
    rw [pyNatStr_ge10 n h10, ih _ hd1 hd2]
    show _ = (padDigits (v + 1 + 1) n).map Nat.digitChar
    show _ = (padDigits (v + 1) (n / 10) ++ [n % 10]).map Nat.digitChar
    simp [padChars]

theorem pyZFill_eq_padChars : ∀ w n, 1 ≤ w → n < 10 ^ w → pyZFill w n = padChars w n := by
  intro w
  induction w with
  | zero => intro n h; omega
  | succ v ih =>
    intro n _ hn
    by_cases hlow : n < 10 ^ v
    · cases Nat.eq_zero_or_pos v with
      | inl hv0 =>
        subst hv0
        have : n = 0 := by simpa using hlow
        subst this
        rfl
      | inr hvpos =>
        have hlen : (pyNatStr n).length ≤ v := pyNatStr_length_le v n hvpos hlow
        have hrep : v + 1 - (pyNatStr n).length = (v - (pyNatStr n).length) + 1 := by omega
        show List.replicate (v + 1 - (pyNatStr n).length) '0' ++ pyNatStr n = _
        rw [hrep, List.replicate_succ]
        have hstep : padChars (v + 1) n = '0' :: padChars v n := by
          unfold padChars
          rw [padDigits_cons0 v n hlow]
          rfl
        rw [hstep]
        have := ih n hvpos hlow
        unfold pyZFill at this
        simp only [List.cons_append]
        rw [this]
    · have hge : 10 ^ v ≤ n := by omega
      have hlen : (pyNatStr n).length = v + 1 := by
        have hle := pyNatStr_length_le (v + 1) n (by omega) hn
        have hgel := pyNatStr_length_ge v n hge
        omega
      show List.replicate (v + 1 - (pyNatStr n).length) '0' ++ pyNatStr n = _
      rw [hlen]
      simp only [Nat.sub_self, List.replicate_zero, List.nil_append]
      exact pyNatStr_eq_padChars v n hge hn

/-! ## Lexicographic order lemmas -/

theorem digitChar_inj : ∀ a, a < 10 → ∀ b, b < 10 →
    Nat.digitChar a = Nat.digitChar b → a = b := by decide

theorem digitChar_mono : ∀ a, a < 10 → ∀ b, b < 10 → a < b →
    Nat.digitChar a < Nat.digitChar b := by decide

theorem lex_append_of_length_eq {l1 l2 : List Char} (s1 s2 : List Char)
    (h : List.Lex (· < ·) l1 l2) (hlen : l1.length = l2.length) :
    List.Lex (· < ·) (l1 ++ s1) (l2 ++ s2) := by
  induction h with
  | nil => simp at hlen
  | @cons a t1 t2 _ ih =>
    simp only [List.length_cons, Nat.succ.injEq] at hlen
    exact List.Lex.cons (ih hlen)
  | rel h => exact List.Lex.rel h

theorem lex_append_last {a b : Char} (l : List Char) (h : a < b) :
    List.Lex (· < ·) (l ++ [a]) (l ++ [b]) := by
  induction l with
  | nil => exact List.Lex.rel h
  | cons c t ih => exact List.Lex.cons ih

theorem padChars_lex : ∀ w d1 d2, d1 < d2 → d2 < 10 ^ w →
    List.Lex (· < ·) (padChars w d1) (padChars w d2) := by
  intro w
  induction w with
  | zero => intro d1 d2 h1 h2; omega
  | succ v ih =>
    intro d1 d2 h1 h2
    have hq : d1 / 10 ≤ d2 / 10 := Nat.div_le_div_right (by omega)
    have hq2 : d2 / 10 < 10 ^ v := by
      rw [Nat.div_lt_iff_lt_mul (by norm_num)]
      calc d2 < 10 ^ (v + 1) := h2
      _ = 10 ^ v * 10 := by rw [pow_succ]
    show List.Lex _ ((padDigits v (d1 / 10) ++ [d1 % 10]).map Nat.digitChar)
      ((padDigits v (d2 / 10) ++ [d2 % 10]).map Nat.digitChar)
    simp only [List.map_append, List.map_cons, List.map_nil]
    rcases Nat.lt_or_ge (d1 / 10) (d2 / 10) with hlt | hge
    · exact lex_append_of_length_eq _ _ (ih _ _ hlt hq2)
        (by simp [padChars, padDigits_length])
    · have heq : d1 / 10 = d2 / 10 := by omega
      rw [heq]
      apply lex_append_last
      apply digitChar_mono _ (Nat.mod_lt _ (by norm_num)) _ (Nat.mod_lt _ (by norm_num))
      have e1 := Nat.div_add_mod d1 10
      have e2 := Nat.div_add_mod d2 10
      omega

theorem append_cancel_suffix {l1 l2 s : List Char} (h : l1 ++ s = l2 ++ s) : l1 = l2 := by
  have hlen : l1.length = l2.length := by
    have := congrArg List.length h
    simp only [List.length_append] at this
    omega
  exact (List.append_inj h hlen).1

theorem pyNatStr_inj (m n : Nat) (h : pyNatStr m = pyNatStr n) : m = n := by
  by_cases hm : m < 10
  · by_cases hn : n < 10
    · rw [pyNatStr_lt10 m hm, pyNatStr_lt10 n hn] at h
      exact digitChar_inj m hm n hn (List.cons.inj h).1
    · exfalso
      have h1 : (pyNatStr m).length = 1 := by rw [pyNatStr_lt10 m hm]; rfl
      have h2 : 2 ≤ (pyNatStr n).length := by
        have := pyNatStr_length_ge 1 n (by simpa using (by omega : 10 ≤ n))
        omega
      rw [h] at h1
      omega
  · by_cases hn : n < 10
    · exfalso
      have h1 : (pyNatStr n).length = 1 := by rw [pyNatStr_lt10 n hn]; rfl
      have h2 : 2 ≤ (pyNatStr m).length := by
        have := pyNatStr_length_ge 1 m (by simpa using (by omega : 10 ≤ m))
        omega
      rw [← h] at h1
      omega
    · rw [pyNatStr_ge10 m (by omega), pyNatStr_ge10 n (by omega)] at h
      have hrev := congrArg List.reverse h
      simp only [List.reverse_append, List.reverse_cons, List.reverse_nil,
        List.nil_append, List.singleton_append] at hrev
      obtain ⟨hd, tl⟩ := List.cons.inj hrev
      have e1 : m % 10 = n % 10 :=
        digitChar_inj _ (Nat.mod_lt _ (by norm_num)) _ (Nat.mod_lt _ (by norm_num)) hd
      have e2 : pyNatStr (m / 10) = pyNatStr (n / 10) := by
        have := congrArg List.reverse tl
        simpa using this
      have e3 : m / 10 = n / 10 := pyNatStr_inj (m / 10) (n / 10) e2
      have d1 := Nat.div_add_mod m 10
      have d2 := Nat.div_add_mod n 10
      omega
termination_by m
decreasing_by exact Nat.div_lt_self (by omega) (by norm_num)

theorem mk_lt_mk (l1 l2 : List Char) (h : List.Lex (· < ·) l1 l2) :
    String.mk l1 < String.mk l2 := by
  rw [String.lt_iff_toList_lt]
  exact h

/-- C1: for any feed and episode count, and any two ordinals whose files land
in the same directory, the filename of the smaller ordinal is lexicographically
smaller than that of the larger ordinal (the fixed-width zero-padded index
makes string order agree with numeric order), so lexicographic sorting of a
directory's filenames reproduces chronological (ordinal) order. -/
theorem c1_filenames_lex_ordered (mfl : Option Nat) (name t1 t2 : List Char)
    (i j total : Nat) (hi : 1 ≤ i) (hij : i < j) (hj : j ≤ total)
    (hdir : batchFolderName name i total = batchFolderName name j total) :
    String.mk (episodeFilename mfl t1 i total) <
      String.mk (episodeFilename mfl t2 j total) := by
  apply mk_lt_mk
  have key : displayIndex i total < displayIndex j total ∧
      displayIndex j total < 10 ^ fileIndexWidth total ∧ 1 ≤ fileIndexWidth total := by
    by_cases h100 : total ≤ 100
    · refine ⟨?_, ?_, ?_⟩ <;>
        simp only [displayIndex, fileIndexWidth, getIndexWidth, if_pos h100]
      · exact hij
      · split_ifs with h9 h99
        · norm_num; omega
        · norm_num; omega
        · norm_num; omega
      · split_ifs <;> norm_num
    · have hb : batchNumber i = batchNumber j := by
        have hdir' := hdir
        simp only [batchFolderName, if_neg h100] at hdir'
        exact pyNatStr_inj _ _ (append_cancel_suffix hdir')
      refine ⟨?_, ?_, ?_⟩ <;> simp only [displayIndex, fileIndexWidth, if_neg h100]
      · unfold batchNumber at hb; omega
      · have he : (10 : Nat) ^ 2 = 100 := by norm_num
        rw [he]; omega
      · norm_num
  obtain ⟨hlt, hbound, hw⟩ := key
  simp only [episodeFilename]
  rw [pyZFill_eq_padChars _ _ hw (lt_trans hlt hbound),
    pyZFill_eq_padChars _ _ hw hbound]
  simp only [List.append_assoc]
  exact lex_append_of_length_eq _ _
    (padChars_lex _ _ _ hlt hbound) (by simp [padChars_length])

theorem c1_filenames_lex_ordered_witness :
    1 ≤ 1 ∧ (1 : Nat) < 2 ∧ 2 ≤ 3 ∧
      batchFolderName "P".data 1 3 = batchFolderName "P".data 2 3 ∧
      String.mk (episodeFilename none "A".data 1 3) <
        String.mk (episodeFilename none "B".data 2 3) :=
  ⟨by decide, by decide, by decide, by decide,
   c1_filenames_lex_ordered none "P".data "A".data "B".data 1 2 3
     (by decide) (by decide) (by decide) (by decide)⟩

/-- The C2 batching layout, as a proposition about the naming definitions. -/
def batchingLayout (name : List Char) (i total : Nat) : Prop :=
  (100 < total →
    batchFolderName name i total = pyNatStr ((i - 1) / 100) ++ '_' :: name ∧
    displayIndex i total = (i - 1) % 100 ∧ fileIndexWidth total = 2) ∧
  (total ≤ 100 →
    batchFolderName name i total = name ∧ displayIndex i total = i ∧
    fileIndexWidth total = getIndexWidth total ∧
    (total ≤ 9 → getIndexWidth total = 1) ∧
    (10 ≤ total → total ≤ 99 → getIndexWidth total = 2) ∧
    (total = 100 → getIndexWidth total = 3)) ∧
  (total = 150 →
    (i ≤ 100 → batchNumber i = 0 ∧ displayIndex i total = i - 1 ∧ i - 1 ≤ 99) ∧
    (101 ≤ i → batchNumber i = 1 ∧ displayIndex i total = i - 101 ∧ i - 101 ≤ 49))

/-- C2: when total_count > 100 the episode with ordinal i goes to batch
(i-1) div 100 with two-digit within-batch index (i-1) mod 100 (for
total_count = 150: ordinals 1..100 in batch 0 with indices 00..99, ordinals
101..150 in batch 1 with indices 00..49); when total_count ≤ 100 a single
unbatched directory is used, with index width 1 if total ≤ 9, 2 if ≤ 99,
else 3. -/
theorem c2_batching (name : List Char) (i total : Nat)
    (h1 : 1 ≤ i) (h2 : i ≤ total) : batchingLayout name i total := by
  refine ⟨?_, ?_, ?_⟩
  · intro h
    have hn : ¬ total ≤ 100 := by omega
    refine ⟨?_, ?_, ?_⟩
    · simp [batchFolderName, hn, batchNumber]
    · simp [displayIndex, hn]
    · simp [fileIndexWidth, hn]
  · intro h
    refine ⟨?_, ?_, ?_, ?_, ?_, ?_⟩
    · simp [batchFolderName, h]
    · simp [displayIndex, h]
    · simp [fileIndexWidth, h]
    · intro h9; simp [getIndexWidth, h9]
    · intro ha hb
      unfold getIndexWidth
      rw [if_neg (by omega), if_pos hb]
    · intro h100; subst h100; decide
  · intro h150
    subst h150
    constructor
    · intro hle
      refine ⟨?_, ?_, ?_⟩
      · unfold batchNumber; omega
      · simp only [displayIndex, if_neg (by norm_num : ¬ (150 : Nat) ≤ 100)]
        omega
      · omega
    · intro hge
      refine ⟨?_, ?_, ?_⟩
      · unfold batchNumber; omega
      · simp only [displayIndex, if_neg (by norm_num : ¬ (150 : Nat) ≤ 100)]
        omega
      · omega

theorem c2_batching_witness :
    (1 : Nat) ≤ 101 ∧ 101 ≤ 150 ∧ batchingLayout "P".data 101 150 :=
  ⟨by decide, by decide, c2_batching "P".data 101 150 (by decide) (by decide)⟩

/-! ## Length-budget lemmas (C3) -/

theorem pyJoin_append_one (acc : List (List Char)) (w : List Char) :
    (pyJoin '_' (acc ++ [w])).length =
      (pyJoin '_' acc).length + w.length + (if acc.isEmpty then 0 else 1) := by
  induction acc with
  | nil => simp [pyJoin]
  | cons a rest ih =>
    cases rest with
    | nil =>
      show (pyJoin '_' [a, w]).length = (pyJoin '_' [a]).length + w.length + _
      simp only [pyJoin, List.isEmpty_cons, List.length_append, List.length_cons]
      simp
      omega
    | cons b rest2 =>
      have hs : (a :: b :: rest2) ++ [w] = a :: b :: (rest2 ++ [w]) := by simp
      rw [hs]
      show (a ++ '_' :: pyJoin '_' (b :: (rest2 ++ [w]))).length = _
      have hs2 : (b :: rest2) ++ [w] = b :: (rest2 ++ [w]) := by simp
      rw [hs2] at ih
      have hj : pyJoin '_' (a :: b :: rest2) = a ++ '_' :: pyJoin '_' (b :: rest2) := rfl
      rw [hj]
      simp only [List.isEmpty_cons] at ih ⊢
      simp only [List.length_append, List.length_cons]
      simp at ih ⊢
      omega

theorem truncGreedy_length : ∀ (ws acc : List (List Char)) (cur m : Nat),
    (pyJoin '_' acc).length = cur → cur ≤ m →
    (pyJoin '_' (truncGreedy m ws acc cur)).length ≤ m := by
  intro ws
  induction ws with
  | nil =>
    intro acc cur m hinv hle
    simpa [truncGreedy, hinv] using hle
  | cons w rest ih =>
    intro acc cur m hinv hle
    show (pyJoin '_' (if cur + w.length + (if acc.isEmpty then 0 else 1) ≤ m
      then truncGreedy m rest (acc ++ [w]) (cur + w.length + (if acc.isEmpty then 0 else 1))
      else acc)).length ≤ m
    by_cases h : cur + w.length + (if acc.isEmpty then 0 else 1) ≤ m
    · rw [if_pos h]
      exact ih (acc ++ [w]) _ m (by rw [pyJoin_append_one, hinv]) h
    · rw [if_neg h, hinv]
      exact hle

theorem truncateAtWordBoundary_length (t : List Char) (m : Nat) :
    (truncateAtWordBoundary t m).length ≤ m := by
  unfold truncateAtWordBoundary
  by_cases h1 : t.length ≤ m
  · rw [if_pos h1]; exact h1
  · rw [if_neg h1]
    show (if (truncGreedy m (splitChar '_' t) [] 0).isEmpty = true then t.take m
      else pyJoin '_' (truncGreedy m (splitChar '_' t) [] 0)).length ≤ m
    by_cases h2 : (truncGreedy m (splitChar '_' t) [] 0).isEmpty = true
    · rw [if_pos h2]
      simp
    · rw [if_neg h2]
      exact truncGreedy_length (splitChar '_' t) [] 0 m rfl (Nat.zero_le m)

/-- C3: TitleShortener.shorten always returns a title portion of at most
max_length - prefix_length - 4 characters (natural-number subtraction: when
the reserve already exceeds the budget the result is the empty token). In
particular with max_length 27 and prefix length 4 the result never exceeds
19 characters. -/
theorem c3_shorten_length (title : List Char) (maxLength prefixLength : Nat) :
    (shorten maxLength title prefixLength).length ≤ maxLength - prefixLength - 4 := by
  unfold shorten
  by_cases hav : ((maxLength : Int) - (prefixLength : Int) - 4) ≤ 0
  · simp [hav]
  · have hout : ((maxLength : Int) - (prefixLength : Int) - 4).toNat =
        maxLength - prefixLength - 4 := by omega
    simp only [if_neg hav]
    split_ifs with h1 h2 h3 h4
    · omega
    · omega
    · omega
    · omega
    · have := truncateAtWordBoundary_length
        (abbreviateWords (abbreviateWords (removeStopWords (cleanTitle title)) 6 4) 5 3)
        ((maxLength : Int) - (prefixLength : Int) - 4).toNat
      omega

/-! ## Sanitization-safety machinery (C4) -/

/-- A well-formed sanitized token: no illegal filename character, no
whitespace, no leading or trailing underscore, no double underscore. -/
def goodTok (l : List Char) : Prop :=
  (∀ c ∈ l, illegalChar c = false ∧ c.isWhitespace = false) ∧
  l.head? ≠ some '_' ∧ l.getLast? ≠ some '_' ∧ adjFree '_' '_' l = true

/-- Well-formed word list: every word nonempty, underscore-free, and made of
safe characters. -/
def goodWords (ws : List (List Char)) : Prop :=
  ∀ w ∈ ws, w ≠ [] ∧ '_' ∉ w ∧ ∀ c ∈ w, illegalChar c = false ∧ c.isWhitespace = false

theorem goodTok_nil : goodTok [] := by
  refine ⟨by simp, by simp, by simp, rfl⟩

theorem adjFree_tail {a b x : Char} {l : List Char}
    (h : adjFree a b (x :: l) = true) : adjFree a b l = true := by
  cases l with
  | nil => rfl
  | cons y t =>
    have h2 : (!(x == a && y == b) && adjFree a b (y :: t)) = true := h
    simp only [Bool.and_eq_true] at h2
    exact h2.2

theorem adjFree_pair {a b x y : Char} {l : List Char}
    (h : adjFree a b (x :: y :: l) = true) : ¬(x = a ∧ y = b) := by
  rintro ⟨hx, hy⟩
  subst hx
  subst hy
  have h2 : (!(x == x && y == y) && adjFree x y (y :: l)) = true := h
  simp at h2

theorem adjFree_cons_of {a b x : Char} {l : List Char}
    (h1 : adjFree a b l = true)
    (h2 : ∀ y, l.head? = some y → ¬(x = a ∧ y = b)) :
    adjFree a b (x :: l) = true := by
  cases l with
  | nil => rfl
  | cons y t =>
    show (!(x == a && y == b) && adjFree a b (y :: t)) = true
    have h3 := h2 y rfl
    have h4 : (x == a && y == b) = false := by
      by_cases hx : x = a
      · by_cases hyb : y = b
        · exact absurd ⟨hx, hyb⟩ h3
        · simp [hyb]
      · simp [hx]
    simp [h4, h1]

theorem adjFree_of_left_not_mem (a b : Char) : ∀ l, a ∉ l → adjFree a b l = true := by
  intro l
  induction l with
  | nil => intro _; rfl
  | cons x cs ih =>
    intro h
    cases cs with
    | nil => rfl
    | cons y t =>
      refine adjFree_cons_of (ih ?_) ?_
      · intro hm; exact h (List.mem_cons_of_mem _ hm)
      · intro z _ hz
        exact h (by rw [hz.1]; exact List.mem_cons_self _ _)

theorem adjFree_append (a b : Char) : ∀ l1 l2 : List Char,
    adjFree a b l1 = true → adjFree a b l2 = true →
    (∀ x y, l1.getLast? = some x → l2.head? = some y → ¬(x = a ∧ y = b)) →
    adjFree a b (l1 ++ l2) = true := by
  intro l1
  induction l1 with
  | nil => intro l2 _ h2 _; simpa using h2
  | cons x cs ih =>
    intro l2 h1 h2 hb
    cases cs with
    | nil =>
      refine adjFree_cons_of (by simpa using h2) ?_
      intro y hy
      exact hb x y rfl (by simpa using hy)
    | cons y t =>
      show adjFree a b (x :: ((y :: t) ++ l2)) = true
      refine adjFree_cons_of ?_ ?_
      · refine ih l2 (adjFree_tail h1) h2 ?_
        intro u v hu hv
        refine hb u v ?_ hv
        rw [List.getLast?_cons_cons]
        exact hu
      · intro z hz
        have : z = y := by
          have : ((y :: t) ++ l2).head? = some y := rfl
          rw [this] at hz
          exact (Option.some.inj hz).symm
        subst this
        exact adjFree_pair h1

theorem adjFree_take (a b : Char) : ∀ (l : List Char) (n : Nat),
    adjFree a b l = true → adjFree a b (l.take n) = true := by
  intro l
  induction l with
  | nil => intro n _; simp [adjFree]
  | cons x cs ih =>
    intro n h
    cases n with
    | zero => rfl
    | succ k =>
      show adjFree a b (x :: cs.take k) = true
      refine adjFree_cons_of (ih k (adjFree_tail h)) ?_
      intro y hy
      cases cs with
      | nil => simp at hy
      | cons d t =>
        cases k with
        | zero => simp at hy
        | succ k2 =>
          have : y = d := by
            have hh : ((d :: t).take (k2 + 1)).head? = some d := rfl
            rw [hh] at hy
            exact (Option.some.inj hy).symm
          subst this
          exact adjFree_pair h

/-! squashRuns lemmas -/

theorem squashRuns_mem (p : Char → Bool) (r : Char) : ∀ (l : List Char) (c : Char),
    c ∈ squashRuns p r l → c = r ∨ (c ∈ l ∧ p c = false) := by
  intro l
  induction l with
  | nil => intro c h; simp [squashRuns] at h
  | cons x cs ih =>
    cases cs with
    | nil =>
      intro c h
      by_cases hp : p x
      · simp only [squashRuns, if_pos hp, List.mem_singleton] at h
        exact Or.inl h
      · simp only [squashRuns, if_neg hp, List.mem_singleton] at h
        subst h
        exact Or.inr ⟨List.mem_singleton_self _, by simpa using hp⟩
    | cons d cs2 =>
      intro c h
      by_cases hp : p x
      · by_cases hpd : p d
        · simp only [squashRuns, if_pos hp, if_pos hpd] at h
          rcases ih c h with h1 | ⟨h1, h2⟩
          · exact Or.inl h1
          · exact Or.inr ⟨List.mem_cons_of_mem _ h1, h2⟩
        · simp only [squashRuns, if_pos hp, if_neg hpd, List.mem_cons] at h
          rcases h with h | h
          · exact Or.inl h
          · rcases ih c h with h1 | ⟨h1, h2⟩
            · exact Or.inl h1
            · exact Or.inr ⟨List.mem_cons_of_mem _ h1, h2⟩
      · simp only [squashRuns, if_neg hp, List.mem_cons] at h
        rcases h with h | h
        · subst h
          exact Or.inr ⟨List.mem_cons_self _ _, by simpa using hp⟩
        · rcases ih c h with h1 | ⟨h1, h2⟩
          · exact Or.inl h1
          · exact Or.inr ⟨List.mem_cons_of_mem _ h1, h2⟩

theorem squashRuns_ne_nil (p : Char → Bool) (r : Char) : ∀ l : List Char,
    l ≠ [] → squashRuns p r l ≠ [] := by
  intro l
  induction l with
  | nil => intro h; exact absurd rfl h
  | cons x cs ih =>
    intro _
    cases cs with
    | nil =>
      by_cases hp : p x
      · simp [squashRuns, hp]
      · simp [squashRuns, hp]
    | cons d cs2 =>
      by_cases hp : p x
      · by_cases hpd : p d
        · simp only [squashRuns, if_pos hp, if_pos hpd]
          exact ih (by simp)
        · simp [squashRuns, if_pos hp, if_neg hpd]
      · simp [squashRuns, if_neg hp]

theorem squashRuns_head (p : Char → Bool) (r : Char) : ∀ (cs : List Char) (x : Char),
    (squashRuns p r (x :: cs)).head? = some (if p x then r else x) := by
  intro cs
  induction cs with
  | nil =>
    intro x
    by_cases hp : p x
    · simp [squashRuns, hp]
    · simp [squashRuns, hp]
  | cons d cs2 ih =>
    intro x
    by_cases hp : p x
    · by_cases hpd : p d
      · simp only [squashRuns, if_pos hp, if_pos hpd]
        rw [ih d]
        simp [hpd, hp]
      · simp [squashRuns, if_pos hp, if_neg hpd]
    · simp [squashRuns, if_neg hp]

theorem getLast?_cons_ne {x : Char} {l : List Char} (h : l ≠ []) :
    (x :: l).getLast? = l.getLast? := by
  cases l with
  | nil => exact absurd rfl h
  | cons y t => exact List.getLast?_cons_cons

theorem squashRuns_getLast (p : Char → Bool) (r : Char) : ∀ (l : List Char) (c : Char),
    l.getLast? = some c → p c = false →
    (squashRuns p r l).getLast? = l.getLast? := by
  intro l
  induction l with
  | nil => intro c h; simp at h
  | cons x cs ih =>
    intro c hlast hp
    cases cs with
    | nil =>
      have hxc : x = c := by simpa using hlast
      subst hxc
      simp [squashRuns, hp]
    | cons d cs2 =>
      have htail : (d :: cs2).getLast? = some c := by
        rw [List.getLast?_cons_cons] at hlast
        exact hlast
      have hih := ih c htail hp
      by_cases hpx : p x
      · by_cases hpd : p d
        · simp only [squashRuns, if_pos hpx, if_pos hpd]
          rw [hih, List.getLast?_cons_cons]
        · simp only [squashRuns, if_pos hpx, if_neg hpd]
          rw [getLast?_cons_ne (squashRuns_ne_nil p r _ (by simp)), hih,
            List.getLast?_cons_cons]
      · simp only [squashRuns, if_neg hpx]
        rw [getLast?_cons_ne (squashRuns_ne_nil p r _ (by simp)), hih,
          List.getLast?_cons_cons]

theorem squashRuns_adjFree (p : Char → Bool) : ∀ l : List Char,
    (∀ c, c ∈ l → p c = false → c ≠ '_') →
    adjFree '_' '_' (squashRuns p '_' l) = true := by
  intro l
  induction l with
  | nil => intro _; rfl
  | cons x cs ih =>
    intro hsafe
    cases cs with
    | nil =>
      by_cases hp : p x
      · simp [squashRuns, hp, adjFree]
      · simp [squashRuns, hp, adjFree]
    | cons d cs2 =>
      have hih := ih (fun c hc hpc => hsafe c (List.mem_cons_of_mem _ hc) hpc)
      by_cases hpx : p x
      · by_cases hpd : p d
        · simpa only [squashRuns, if_pos hpx, if_pos hpd] using hih
        · simp only [squashRuns, if_pos hpx, if_neg hpd]
          refine adjFree_cons_of hih ?_
          intro y hy
          rw [squashRuns_head p '_' cs2 d, if_neg hpd] at hy
          have : y = d := (Option.some.inj hy).symm
          subst this
          have := hsafe y (List.mem_cons_of_mem _ (List.mem_cons_self _ _))
            (by simpa using hpd)
          tauto
      · simp only [squashRuns, if_neg hpx]
        refine adjFree_cons_of hih ?_
        intro y _
        have := hsafe x (List.mem_cons_self _ _) (by simpa using hpx)
        tauto

/-! pyStrip lemmas -/

theorem dropWhile_head_false (p : Char → Bool) : ∀ (l : List Char) (c : Char),
    (l.dropWhile p).head? = some c → p c = false := by
  intro l
  induction l with
  | nil => intro c h; simp at h
  | cons x cs ih =>
    intro c h
    by_cases hp : p x
    · rw [List.dropWhile_cons, if_pos hp] at h
      exact ih c h
    · rw [List.dropWhile_cons, if_neg hp] at h
      have : c = x := by simpa using h.symm
      subst this
      simpa using hp

theorem dropWhile_getLast_of_ne_nil (p : Char → Bool) : ∀ l : List Char,
    l.dropWhile p ≠ [] → (l.dropWhile p).getLast? = l.getLast? := by
  intro l
  induction l with
  | nil => intro h; simp at h
  | cons x cs ih =>
    intro h
    by_cases hp : p x
    · rw [List.dropWhile_cons, if_pos hp] at h ⊢
      have hcs : cs ≠ [] := by
        intro hc; subst hc; simp at h
      rw [ih h, getLast?_cons_ne hcs]
    · rw [List.dropWhile_cons, if_neg hp]

theorem pyStrip_mem (p : Char → Bool) (l : List Char) (c : Char)
    (h : c ∈ pyStrip p l) : c ∈ l := by
  unfold pyStrip at h
  rw [List.mem_reverse] at h
  have h2 : c ∈ (l.dropWhile p).reverse :=
    (show ((l.dropWhile p).reverse.dropWhile p).Sublist (l.dropWhile p).reverse from
      List.dropWhile_sublist p).subset h
  rw [List.mem_reverse] at h2
  exact (List.dropWhile_sublist p).subset h2

theorem pyStrip_head (p : Char → Bool) (l : List Char) (c : Char)
    (h : (pyStrip p l).head? = some c) : p c = false := by
  unfold pyStrip at h
  rw [List.head?_reverse] at h
  have hne : ((l.dropWhile p).reverse.dropWhile p) ≠ [] := by
    intro he; rw [he] at h; simp at h
  rw [dropWhile_getLast_of_ne_nil p _ hne, List.getLast?_reverse] at h
  exact dropWhile_head_false p l c h

theorem pyStrip_getLast (p : Char → Bool) (l : List Char) (c : Char)
    (h : (pyStrip p l).getLast? = some c) : p c = false := by
  unfold pyStrip at h
  rw [List.getLast?_reverse] at h
  exact dropWhile_head_false p _ c h

theorem dropWhile_noop (p : Char → Bool) (l : List Char)
    (h : ∀ c ∈ l, p c = false) : l.dropWhile p = l := by
  cases l with
  | nil => rfl
  | cons x cs =>
    rw [List.dropWhile_cons, if_neg]
    rw [h x (List.mem_cons_self _ _)]
    simp

theorem pyStrip_noop (p : Char → Bool) (l : List Char)
    (h : ∀ c ∈ l, p c = false) : pyStrip p l = l := by
  unfold pyStrip
  rw [dropWhile_noop p l h, dropWhile_noop p l.reverse (by
    intro c hc; exact h c (List.mem_reverse.mp hc))]
  exact List.reverse_reverse l

/-! splitChar / pyJoin lemmas -/

theorem splitChar_ne_nil (sep : Char) : ∀ l : List Char, splitChar sep l ≠ [] := by
  intro l
  induction l with
  | nil => simp [splitChar]
  | cons c cs ih =>
    by_cases hc : c = sep
    · simp [splitChar, hc]
    · cases h : splitChar sep cs with
      | nil => exact absurd h ih
      | cons w ws => simp [splitChar, hc, h]

theorem splitChar_not_mem_sep (sep : Char) : ∀ (l : List Char) (w : List Char),
    w ∈ splitChar sep l → sep ∉ w := by
  intro l
  induction l with
  | nil =>
    intro w hw
    simp [splitChar] at hw
    subst hw
    simp
  | cons c cs ih =>
    intro w hw
    by_cases hc : c = sep
    · simp only [splitChar, if_pos hc, List.mem_cons] at hw
      rcases hw with hw | hw
      · subst hw; simp
      · exact ih w hw
    · cases h : splitChar sep cs with
      | nil => exact absurd h (splitChar_ne_nil sep cs)
      | cons w0 ws =>
        simp only [splitChar, if_neg hc, h, List.mem_cons] at hw
        rcases hw with hw | hw
        · subst hw
          intro hmem
          rcases List.mem_cons.mp hmem with h1 | h1
          · exact hc h1.symm
          · exact ih w0 (by rw [h]; exact List.mem_cons_self _ _) h1
        · exact ih w (by rw [h]; exact List.mem_cons_of_mem _ hw)

theorem splitChar_mem_chars (sep : Char) : ∀ (l w : List Char) (c : Char),
    w ∈ splitChar sep l → c ∈ w → c ∈ l := by
  intro l
  induction l with
  | nil =>
    intro w c hw hc
    simp [splitChar] at hw
    subst hw
    simp at hc
  | cons x cs ih =>
    intro w c hw hc
    by_cases hx : x = sep
    · simp only [splitChar, if_pos hx, List.mem_cons] at hw
      rcases hw with hw | hw
      · subst hw; simp at hc
      · exact List.mem_cons_of_mem _ (ih w c hw hc)
    · cases h : splitChar sep cs with
      | nil => exact absurd h (splitChar_ne_nil sep cs)
      | cons w0 ws =>
        simp only [splitChar, if_neg hx, h, List.mem_cons] at hw
        rcases hw with hw | hw
        · subst hw
          rcases List.mem_cons.mp hc with h1 | h1
          · subst h1; exact List.mem_cons_self _ _
          · exact List.mem_cons_of_mem _
              (ih w0 c (by rw [h]; exact List.mem_cons_self _ _) h1)
        · exact List.mem_cons_of_mem _
            (ih w c (by rw [h]; exact List.mem_cons_of_mem _ hw) hc)

theorem pyJoin_splitChar (sep : Char) : ∀ l : List Char,
    pyJoin sep (splitChar sep l) = l := by
  intro l
  induction l with
  | nil => rfl
  | cons c cs ih =>
    by_cases hc : c = sep
    · subst hc
      have hsp : splitChar c (c :: cs) = [] :: splitChar c cs := by
        simp [splitChar]
      rw [hsp]
      cases h : splitChar c cs with
      | nil => exact absurd h (splitChar_ne_nil c cs)
      | cons w ws =>
        simp only [pyJoin, List.nil_append]
        rw [← h, ih]
    · cases h : splitChar sep cs with
      | nil => exact absurd h (splitChar_ne_nil sep cs)
      | cons w ws =>
        simp only [splitChar, if_neg hc, h]
        cases ws with
        | nil =>
          show c :: w = c :: cs
          rw [h] at ih
          simpa [pyJoin] using ih
        | cons w2 ws2 =>
          show (c :: w) ++ sep :: pyJoin sep (w2 :: ws2) = c :: cs
          rw [h] at ih
          have : w ++ sep :: pyJoin sep (w2 :: ws2) = cs := ih
          simpa using this

theorem pyJoin_ne_nil : ∀ ws : List (List Char), ws ≠ [] → (∀ w ∈ ws, w ≠ []) →
    pyJoin '_' ws ≠ [] := by
  intro ws
  cases ws with
  | nil => intro h _; exact absurd rfl h
  | cons w rest =>
    intro _ hall
    cases rest with
    | nil => exact hall w (List.mem_cons_self _ _)
    | cons x xs =>
      show w ++ '_' :: pyJoin '_' (x :: xs) ≠ []
      simp

/-- Fuel-indexed: every word of splitChar of a good token is nonempty. -/
theorem splitChar_words_ne_nil_fuel : ∀ (n : Nat) (l : List Char), l.length ≤ n →
    l ≠ [] → l.head? ≠ some '_' → l.getLast? ≠ some '_' → adjFree '_' '_' l = true →
    ∀ w ∈ splitChar '_' l, w ≠ [] := by
  intro n
  induction n with
  | zero =>
    intro l hlen hne _ _ _
    have : l = [] := by
      cases l with
      | nil => rfl
      | cons x cs => simp at hlen
    exact absurd this hne
  | succ k ih =>
    intro l hlen hne hh hl ha
    cases l with
    | nil => exact absurd rfl hne
    | cons c cs =>
      have hc : c ≠ '_' := by
        intro hcc
        exact hh (by rw [hcc]; rfl)
      cases cs with
      | nil =>
        intro w hw
        have hsp : splitChar '_' [c] = [[c]] := by
          simp [splitChar, hc]
        rw [hsp] at hw
        have : w = [c] := by simpa using hw
        subst this
        simp
      | cons d cs2 =>
        by_cases hd : d = '_'
        · subst hd
          have ha2 : adjFree '_' '_' ('_' :: cs2) = true := adjFree_tail ha
          have hcs2ne : cs2 ≠ [] := by
            intro h0
            subst h0
            exact hl (by rfl)
          have hhcs2 : cs2.head? ≠ some '_' := by
            cases cs2 with
            | nil => simp
            | cons e t =>
              intro he
              have he2 : e = '_' := by simpa using he
              exact absurd ⟨rfl, he2⟩ (adjFree_pair ha2)
          have hlcs2 : cs2.getLast? ≠ some '_' := by
            rw [getLast?_cons_ne (show ('_' :: cs2 : List Char) ≠ [] from by simp)] at hl
            rw [getLast?_cons_ne hcs2ne] at hl
            exact hl
          have IH := ih cs2 (by simp at hlen ⊢; omega) hcs2ne hhcs2 hlcs2
            (adjFree_tail ha2)
          have hsp : splitChar '_' (c :: '_' :: cs2) = [c] :: splitChar '_' cs2 := by
            have h1 : splitChar '_' ('_' :: cs2) = [] :: splitChar '_' cs2 := by
              simp [splitChar]
            show (if c = '_' then [] :: splitChar '_' ('_' :: cs2)
              else match splitChar '_' ('_' :: cs2) with
                | w :: ws => (c :: w) :: ws
                | [] => [[c]]) = _
            rw [if_neg hc, h1]
          rw [hsp]
          intro w hw
          rcases List.mem_cons.mp hw with h1 | h1
          · subst h1; simp
          · exact IH w h1
        · have IH := ih (d :: cs2) (by simp at hlen ⊢; omega) (by simp)
            (by simpa using hd)
            (by
              rw [getLast?_cons_ne (show (d :: cs2 : List Char) ≠ [] from by simp)] at hl
              exact hl)
            (adjFree_tail ha)
          intro w hw
          cases h : splitChar '_' (d :: cs2) with
          | nil => exact absurd h (splitChar_ne_nil _ _)
          | cons w0 ws0 =>
            have hsp : splitChar '_' (c :: d :: cs2) = (c :: w0) :: ws0 := by
              show (if c = '_' then [] :: splitChar '_' (d :: cs2)
                else match splitChar '_' (d :: cs2) with
                  | w :: ws => (c :: w) :: ws
                  | [] => [[c]]) = _
              rw [if_neg hc, h]
            rw [hsp] at hw
            rcases List.mem_cons.mp hw with h1 | h1
            · subst h1; simp
            · exact IH w (by rw [h]; exact List.mem_cons_of_mem _ h1)

theorem goodTok_words (l : List Char) (hg : goodTok l) (hne : l ≠ []) :
    goodWords (splitChar '_' l) := by
  obtain ⟨hcs, hh, hl, ha⟩ := hg
  intro w hw
  refine ⟨splitChar_words_ne_nil_fuel l.length l (le_refl _) hne hh hl ha w hw,
    splitChar_not_mem_sep '_' l w hw,
    fun c hc => hcs c (splitChar_mem_chars '_' l w c hw hc)⟩

theorem goodTok_of_no_underscore (l : List Char) (h1 : '_' ∉ l)
    (h2 : ∀ c ∈ l, illegalChar c = false ∧ c.isWhitespace = false) : goodTok l := by
  refine ⟨h2, ?_, ?_, adjFree_of_left_not_mem _ _ l h1⟩
  · intro hh
    exact h1 (List.mem_of_mem_head? (by rw [hh]; simp))
  · intro hh
    exact h1 (List.mem_of_mem_getLast? (by rw [hh]; simp))

theorem pyJoin_good : ∀ ws : List (List Char), goodWords ws → goodTok (pyJoin '_' ws) := by
  intro ws
  induction ws with
  | nil => intro _; exact goodTok_nil
  | cons w rest ih =>
    intro hg
    have hw := hg w (List.mem_cons_self _ _)
    cases rest with
    | nil => exact goodTok_of_no_underscore w hw.2.1 hw.2.2
    | cons x xs =>
      have hrest : goodWords (x :: xs) := fun v hv => hg v (List.mem_cons_of_mem _ hv)
      have hJ := ih hrest
      have hJne : pyJoin '_' (x :: xs) ≠ [] :=
        pyJoin_ne_nil (x :: xs) (by simp) (fun v hv => (hrest v hv).1)
      show goodTok (w ++ '_' :: pyJoin '_' (x :: xs))
      obtain ⟨hJc, hJh, hJl, hJa⟩ := hJ
      refine ⟨?_, ?_, ?_, ?_⟩
      · intro c hc
        rcases List.mem_append.mp hc with h | h
        · exact hw.2.2 c h
        · rcases List.mem_cons.mp h with h | h
          · subst h; exact ⟨by decide, by decide⟩
          · exact hJc c h
      · cases w with
        | nil => exact absurd rfl hw.1
        | cons a t =>
          intro hh
          have ha2 : a = '_' := by simpa using hh
          exact hw.2.1 (by rw [← ha2]; exact List.mem_cons_self _ _)
      · rw [List.getLast?_append_of_ne_nil w (by simp : '_' :: pyJoin '_' (x :: xs) ≠ [])]
        rw [getLast?_cons_ne hJne]
        exact hJl
      · refine adjFree_append '_' '_' w ('_' :: pyJoin '_' (x :: xs))
          (adjFree_of_left_not_mem _ _ w hw.2.1) ?_ ?_
        · refine adjFree_cons_of hJa ?_
          intro y hy
          rintro ⟨_, hy2⟩
          exact hJh (by rw [hy, hy2])
        · intro u v hu _
          rintro ⟨hu2, _⟩
          exact hw.2.1 (by rw [← hu2]; exact List.mem_of_mem_getLast? (by rw [hu]; simp))

/-! cleaning and strategy-stage goodness -/

theorem illegal_not_kept (c : Char) (h : illegalChar c = true) :
    (wordChar c || c.isWhitespace || c = '-') = false := by
  unfold illegalChar at h
  simp only [Bool.or_eq_true, decide_eq_true_eq] at h
  rcases h with ((((((((h | h) | h) | h) | h) | h) | h) | h) | h) <;> (subst h; decide)

theorem kept_not_illegal (c : Char) (h : (wordChar c || c.isWhitespace || c = '-') = true) :
    illegalChar c = false := by
  by_cases hi : illegalChar c = true
  · rw [illegal_not_kept c hi] at h
    exact absurd h (by simp)
  · simpa using hi

theorem cleanTitle_good (t : List Char) : goodTok (cleanTitle t) := by
  show goodTok (squashRuns (fun c => c = '_') '_' (pyStrip (fun c => c = '_')
    (squashRuns Char.isWhitespace '_'
      (t.filter (fun c => wordChar c || c.isWhitespace || c = '-')))))
  have hA : ∀ c ∈ squashRuns Char.isWhitespace '_'
      (t.filter (fun c => wordChar c || c.isWhitespace || c = '-')),
      illegalChar c = false ∧ c.isWhitespace = false := by
    intro c hc
    rcases squashRuns_mem _ _ _ c hc with h | ⟨hm, hw⟩
    · subst h; exact ⟨by decide, by decide⟩
    · have hk := (List.mem_filter.mp hm).2
      exact ⟨kept_not_illegal c hk, hw⟩
  have hB : ∀ c ∈ pyStrip (fun c => c = '_') (squashRuns Char.isWhitespace '_'
      (t.filter (fun c => wordChar c || c.isWhitespace || c = '-'))),
      illegalChar c = false ∧ c.isWhitespace = false :=
    fun c hc => hA c (pyStrip_mem _ _ c hc)
  refine ⟨?_, ?_, ?_, ?_⟩
  · intro c hc
    rcases squashRuns_mem _ _ _ c hc with h | ⟨hm, _⟩
    · subst h; exact ⟨by decide, by decide⟩
    · exact hB c hm
  · cases hBl : pyStrip (fun c => c = '_') (squashRuns Char.isWhitespace '_'
        (t.filter (fun c => wordChar c || c.isWhitespace || c = '-'))) with
    | nil => simp [squashRuns]
    | cons x cs =>
      rw [squashRuns_head]
      have hx : decide (x = '_') = false := by
        apply pyStrip_head (fun c => decide (c = '_')) (squashRuns Char.isWhitespace '_'
          (t.filter (fun c => wordChar c || c.isWhitespace || c = '-'))) x
        rw [hBl]; rfl
      have hx2 : ¬(x = '_') := by simpa using hx
      rw [if_neg (by simpa using hx2)]
      simpa using hx2
  · cases hBl : (pyStrip (fun c => c = '_') (squashRuns Char.isWhitespace '_'
        (t.filter (fun c => wordChar c || c.isWhitespace || c = '-')))).getLast? with
    | none =>
      have hnil : pyStrip (fun c => c = '_') (squashRuns Char.isWhitespace '_'
          (t.filter (fun c => wordChar c || c.isWhitespace || c = '-'))) = [] :=
        List.getLast?_eq_none_iff.mp hBl
      rw [hnil]
      simp [squashRuns]
    | some c =>
      have hc : decide (c = '_') = false := pyStrip_getLast _ _ c hBl
      rw [squashRuns_getLast _ _ _ c hBl hc, hBl]
      simp only [decide_eq_true_eq] at hc
      simpa using hc
  · apply squashRuns_adjFree
    intro c _ hpc
    simpa using hpc

theorem take_good (w : List Char) (m : Nat) (hNoU : '_' ∉ w)
    (hc : ∀ c ∈ w, illegalChar c = false ∧ c.isWhitespace = false) :
    goodTok (w.take m) := by
  refine goodTok_of_no_underscore _ ?_ ?_
  · intro h; exact hNoU (List.take_subset m w h)
  · intro c h; exact hc c (List.take_subset m w h)

theorem removeStopWords_good (l : List Char) (hg : goodTok l) (hne : l ≠ []) :
    goodTok (removeStopWords l) ∧ removeStopWords l ≠ [] := by
  have hws := goodTok_words l hg hne
  unfold removeStopWords
  by_cases hf : ((splitChar '_' l).filter (fun w =>
      !(stopWords.contains (String.mk (w.map Char.toLower))) || pyIsDigit w)).isEmpty
  · rw [if_pos hf]
    exact ⟨hg, hne⟩
  · rw [if_neg hf]
    have hgw : goodWords ((splitChar '_' l).filter (fun w =>
        !(stopWords.contains (String.mk (w.map Char.toLower))) || pyIsDigit w)) :=
      fun w hw => hws w (List.mem_of_mem_filter hw)
    refine ⟨pyJoin_good _ hgw, pyJoin_ne_nil _ ?_ (fun w hw => (hgw w hw).1)⟩
    intro h0
    rw [h0] at hf
    exact hf rfl

theorem abbreviateWords_good (l : List Char) (a k : Nat) (hk : 1 ≤ k)
    (hg : goodTok l) (hne : l ≠ []) :
    goodTok (abbreviateWords l a k) ∧ abbreviateWords l a k ≠ [] := by
  have hws := goodTok_words l hg hne
  unfold abbreviateWords
  have hgw : goodWords ((splitChar '_' l).map (fun w =>
      if a < w.length && !pyIsDigit w then w.take k else w)) := by
    intro w hw
    obtain ⟨w0, hw0, hmap⟩ := List.mem_map.mp hw
    have h0 := hws w0 hw0
    subst hmap
    by_cases hcond : (a < w0.length && !pyIsDigit w0) = true
    · rw [if_pos hcond]
      refine ⟨?_, fun h => h0.2.1 (List.take_subset k w0 h),
        fun c h => h0.2.2 c (List.take_subset k w0 h)⟩
      have : 0 < w0.length := by
        cases w0 with
        | nil => exact absurd rfl h0.1
        | cons => simp
      intro hnil
      have := congrArg List.length hnil
      simp only [List.length_take, List.length_nil] at this
      omega
    · rw [if_neg hcond]
      exact h0
  refine ⟨pyJoin_good _ hgw, pyJoin_ne_nil _ ?_ (fun w hw => (hgw w hw).1)⟩
  intro h0
  have := congrArg List.length h0
  simp only [List.length_map, List.length_nil] at this
  exact splitChar_ne_nil '_' l (List.length_eq_zero.mp this)

theorem truncGreedy_sub : ∀ (ws acc : List (List Char)) (cur m : Nat) (w : List Char),
    w ∈ truncGreedy m ws acc cur → w ∈ acc ∨ w ∈ ws := by
  intro ws
  induction ws with
  | nil => intro acc cur m w h; exact Or.inl h
  | cons x rest ih =>
    intro acc cur m w h
    simp only [truncGreedy] at h
    by_cases hc : cur + x.length + (if acc.isEmpty = true then 0 else 1) ≤ m
    · rw [if_pos hc] at h
      rcases ih _ _ _ w h with h1 | h1
      · rcases List.mem_append.mp h1 with h2 | h2
        · exact Or.inl h2
        · exact Or.inr (by
            have : w = x := by simpa using h2
            rw [this]; exact List.mem_cons_self _ _)
      · exact Or.inr (List.mem_cons_of_mem _ h1)
    · rw [if_neg hc] at h
      exact Or.inl h

theorem truncGreedy_acc_ne : ∀ (ws acc : List (List Char)) (cur m : Nat),
    acc ≠ [] → truncGreedy m ws acc cur ≠ [] := by
  intro ws
  induction ws with
  | nil => intro acc cur m h; exact h
  | cons x rest ih =>
    intro acc cur m h
    show (if cur + x.length + (if acc.isEmpty then 0 else 1) ≤ m
      then truncGreedy m rest (acc ++ [x]) (cur + x.length + (if acc.isEmpty then 0 else 1))
      else acc) ≠ []
    by_cases hc : cur + x.length + (if acc.isEmpty then 0 else 1) ≤ m
    · rw [if_pos hc]
      exact ih _ _ _ (by simp)
    · rw [if_neg hc]
      exact h

theorem truncateAtWordBoundary_good (l : List Char) (m : Nat)
    (hg : goodTok l) (hne : l ≠ []) : goodTok (truncateAtWordBoundary l m) := by
  have hws := goodTok_words l hg hne
  unfold truncateAtWordBoundary
  by_cases h1 : l.length ≤ m
  · rw [if_pos h1]; exact hg
  · rw [if_neg h1]
    show goodTok (if (truncGreedy m (splitChar '_' l) [] 0).isEmpty = true then l.take m
      else pyJoin '_' (truncGreedy m (splitChar '_' l) [] 0))
    by_cases h2 : (truncGreedy m (splitChar '_' l) [] 0).isEmpty = true
    · rw [if_pos h2]
      -- the greedy loop kept nothing: the first word alone exceeds m
      cases hsp : splitChar '_' l with
      | nil => exact absurd hsp (splitChar_ne_nil '_' l)
      | cons w1 ws1 =>
        have hr : truncGreedy m (w1 :: ws1) [] 0 = [] := by
          rw [← hsp]
          simpa using h2
        have hw1 : m < w1.length := by
          by_contra hle
          have hstep : truncGreedy m (w1 :: ws1) [] 0 =
              truncGreedy m ws1 [w1] (0 + w1.length + 0) := by
            show (if 0 + w1.length + (if ([] : List (List Char)).isEmpty then 0 else 1) ≤ m
              then truncGreedy m ws1 ([] ++ [w1]) _ else []) = _
            rw [if_pos (by simpa using (by omega : w1.length ≤ m))]
            rfl
          rw [hstep] at hr
          exact truncGreedy_acc_ne ws1 [w1] _ m (by simp) hr
        have hjoin := pyJoin_splitChar '_' l
        rw [hsp] at hjoin
        have hw1g := hws w1 (by rw [hsp]; exact List.mem_cons_self _ _)
        have htake : l.take m = w1.take m := by
          cases ws1 with
          | nil => rw [← hjoin]; rfl
          | cons x xs =>
            have : w1 ++ '_' :: pyJoin '_' (x :: xs) = l := hjoin
            rw [← this, List.take_append_of_le_length (by omega)]
        rw [htake]
        exact take_good w1 m hw1g.2.1 hw1g.2.2
    · rw [if_neg h2]
      refine pyJoin_good _ ?_
      intro w hw
      rcases truncGreedy_sub _ _ _ _ w hw with h3 | h3
      · simp at h3
      · exact hws w h3

theorem shorten_good (maxLength : Nat) (title : List Char) (prefixLength : Nat) :
    goodTok (shorten maxLength title prefixLength) := by
  unfold shorten
  by_cases hav : ((maxLength : Int) - (prefixLength : Int) - 4) ≤ 0
  · rw [if_pos hav]; exact goodTok_nil
  · simp only [if_neg hav]
    have hc := cleanTitle_good title
    split_ifs with h1 h2 h3 h4
    · exact hc
    · have hne : cleanTitle title ≠ [] := by
        intro h0; rw [h0] at h1; simp at h1
      exact (removeStopWords_good _ hc hne).1
    · have hne : cleanTitle title ≠ [] := by
        intro h0; rw [h0] at h1; simp at h1
      have hs1 := removeStopWords_good _ hc hne
      exact (abbreviateWords_good _ 6 4 (by norm_num) hs1.1 hs1.2).1
    · have hne : cleanTitle title ≠ [] := by
        intro h0; rw [h0] at h1; simp at h1
      have hs1 := removeStopWords_good _ hc hne
      have hs2 := abbreviateWords_good _ 6 4 (by norm_num) hs1.1 hs1.2
      exact (abbreviateWords_good _ 5 3 (by norm_num) hs2.1 hs2.2).1
    · have hne : cleanTitle title ≠ [] := by
        intro h0; rw [h0] at h1; simp at h1
      have hs1 := removeStopWords_good _ hc hne
      have hs2 := abbreviateWords_good _ 6 4 (by norm_num) hs1.1 hs1.2
      have hs3 := abbreviateWords_good _ 5 3 (by norm_num) hs2.1 hs2.2
      exact truncateAtWordBoundary_good _ _ hs3.1 hs3.2

theorem ite_good (c : Prop) [Decidable c] (f : List Char → List Char) (l : List Char)
    (hl : goodTok l ∧ l ≠ [])
    (hf : goodTok l → l ≠ [] → goodTok (f l) ∧ f l ≠ []) :
    goodTok (if c then f l else l) ∧ (if c then f l else l) ≠ [] := by
  split_ifs with h
  · exact hf hl.1 hl.2
  · exact hl

theorem chain_trunc_good (l : List Char) (m : Nat) (hg : goodTok l ∧ l ≠ []) :
    goodTok (if m < l.length then truncateAtWordBoundary l m else l) := by
  split_ifs with h
  · exact truncateAtWordBoundary_good _ _ hg.1 hg.2
  · exact hg.1

theorem getPodcastNameShort_good (m : Nat) (title : List Char) :
    goodTok (getPodcastNameShort m title) := by
  have hc := cleanTitle_good title
  by_cases hne : cleanTitle title = []
  · simp only [getPodcastNameShort, hne, List.length_nil, Nat.not_lt_zero,
      if_false]
    exact goodTok_nil
  · simp only [getPodcastNameShort]
    exact chain_trunc_good _ m
      (ite_good _ (fun l => abbreviateWords l 6 4) _
        (ite_good _ removeStopWords (cleanTitle title) ⟨hc, hne⟩
          (fun hg hn => removeStopWords_good _ hg hn))
        (fun hg hn => abbreviateWords_good _ 6 4 (by norm_num) hg hn))

/-! Default-path lemmas -/

theorem defaultCleanTitle_eq (t : List Char) : defaultCleanTitle t =
    squashRuns Char.isWhitespace '_' (t.filter (fun c => !illegalChar c)) := by
  unfold defaultCleanTitle
  apply pyStrip_noop
  intro c hc
  rcases squashRuns_mem _ _ _ c hc with h | ⟨_, h⟩
  · subst h; decide
  · exact h

theorem defaultCleanTitle_safe (t : List Char) : ∀ c ∈ defaultCleanTitle t,
    illegalChar c = false ∧ c.isWhitespace = false := by
  intro c hc
  rw [defaultCleanTitle_eq] at hc
  rcases squashRuns_mem _ _ _ c hc with h | ⟨hmem, hws⟩
  · subst h; exact ⟨by decide, by decide⟩
  · refine ⟨?_, hws⟩
    have := (List.mem_filter.mp hmem).2
    simpa using this

theorem defaultCleanTitle_adjFree (t : List Char) (h : '_' ∉ t) :
    adjFree '_' '_' (defaultCleanTitle t) = true := by
  rw [defaultCleanTitle_eq]
  apply squashRuns_adjFree
  intro c hc _ hcu
  subst hcu
  exact h (List.mem_of_mem_filter hc)

/-- The C4 sanitization property as amended: the TitleShortener paths
(file title and folder name) produce tokens with no illegal character, no
whitespace, no leading/trailing underscore and no double underscore; the
default cleaning paths produce no illegal character and no whitespace, and
collapse whitespace runs to single underscores (no double underscore when the
input itself contains no underscore), but may leave a leading or trailing
underscore arising from leading/trailing whitespace. -/
def sanitizeSafety (title : List Char) (maxLength prefixLength folderMax : Nat) : Prop :=
  goodTok (shorten maxLength title prefixLength) ∧
  goodTok (getPodcastNameShort folderMax title) ∧
  (∀ c ∈ defaultCleanTitle title, illegalChar c = false ∧ c.isWhitespace = false) ∧
  (∀ c ∈ getPodcastNameDefault title, illegalChar c = false ∧ c.isWhitespace = false) ∧
  ('_' ∉ title → adjFree '_' '_' (defaultCleanTitle title) = true ∧
    adjFree '_' '_' (getPodcastNameDefault title) = true)

/-- C4 counterexample: the claim as stated is false on the default cleaning
path.  The title "? A" contains the illegal character '?', and the default
path (remove illegal characters, replace whitespace runs by underscore, then
Python str.strip, which strips whitespace only) yields "_A", which retains a
leading underscore. -/
theorem c4_sanitization_counterexample :
    illegalChar '?' = true ∧ '?' ∈ ('?' :: ' ' :: 'A' :: []) ∧
    defaultCleanTitle ('?' :: ' ' :: 'A' :: []) = '_' :: 'A' :: [] ∧
    (defaultCleanTitle ('?' :: ' ' :: 'A' :: [])).head? = some '_' := by decide

/-- C4 (amended): sanitization safety as produced by the code — illegal
characters never survive and whitespace is collapsed to single underscores on
every path; leading/trailing underscores are guaranteed absent only on the
TitleShortener paths, while the default paths may retain them. -/
theorem c4_sanitization_amended (title : List Char)
    (maxLength prefixLength folderMax : Nat) :
    sanitizeSafety title maxLength prefixLength folderMax := by
  refine ⟨shorten_good maxLength title prefixLength,
    getPodcastNameShort_good folderMax title,
    defaultCleanTitle_safe title,
    ?_, ?_⟩
  · intro c hc
    exact defaultCleanTitle_safe title c (List.take_subset 100 _ hc)
  · intro hU
    refine ⟨defaultCleanTitle_adjFree title hU, ?_⟩
    exact adjFree_take '_' '_' _ 100 (defaultCleanTitle_adjFree title hU)

theorem c4_sanitization_amended_witness :
    sanitizeSafety ('x' :: '?' :: ' ' :: 'y' :: []) 27 4 27 :=
  c4_sanitization_amended ('x' :: '?' :: ' ' :: 'y' :: []) 27 4 27

/-! ## Download orchestration model (PodcastDownloader.download_episode /
download_episodes / run / main).

The filesystem is explicit state keyed by (directory, filename); the network
and the transcoder are oracles supplied per job.  The thread pool is embedded
sequentially: jobs have disjoint target paths and the claims below concern
per-job effects and the fold of all jobs, not interleavings. -/

/-- Python str.startswith at character level (String.startsWith is
byte-based and does not kernel-reduce). -/
def startsWithChars : List Char → List Char → Bool
  | _, [] => true
  | [], _ :: _ => false
  | c :: cs, p :: ps => c == p && startsWithChars cs ps

structure Link where
  linkType : List Char
  href : List Char
deriving DecidableEq

structure Episode where
  title : Option (List Char)
  links : List Link
deriving DecidableEq

/-- The enclosure scan in download_episode: first link whose type (default
empty string) starts with audio/. -/
def findEnclosure (ep : Episode) : Option Link :=
  ep.links.find? (fun l => startsWithChars l.linkType "audio/".data)

def hasAudioEnclosure (ep : Episode) : Bool :=
  (findEnclosure ep).isSome

/-- episode.get('title', f"Episode_{index}"). -/
def effTitle (ep : Episode) (index : Nat) : List Char :=
  match ep.title with
  | some t => t
  | none => "Episode_".data ++ pyNatStr index

structure FS where
  dirs : List Char → Bool
  files : List Char × List Char → Option (List Char)

def FS.mkdirP (fs : FS) (d : List Char) : FS :=
  ⟨fun x => if x = d then true else fs.dirs x, fs.files⟩

def FS.write (fs : FS) (p : List Char × List Char) (content : List Char) : FS :=
  ⟨fs.dirs, fun x => if x = p then some content else fs.files x⟩

def FS.removeFile (fs : FS) (p : List Char × List Char) : FS :=
  ⟨fs.dirs, fun x => if x = p then none else fs.files x⟩

/-- Outcome of the streamed GET: success with the full body, or an error
raised before the file was opened (partialBody = none) or mid-stream after
some bytes were written (partialBody = some). -/
inductive NetResult where
  | ok (body : List Char)
  | err (msg : List Char) (partialBody : Option (List Char))
deriving DecidableEq

structure Oracle where
  net : NetResult
  convertOk : Bool
  convertedBody : List Char
  failedTempLeft : Bool
deriving DecidableEq

structure Config where
  maxFilenameLength : Option Nat
  convert : Bool
  maxEpisodes : Nat
deriving DecidableEq

/-- The value returned by download_episode: the bare False for a missing
audio enclosure, else the (index, title, success, status) tuple. -/
inductive DLResult where
  | noEnclosure
  | done (index : Nat) (title : List Char) (success : Bool) (status : List Char)
deriving DecidableEq

def targetPathOf (cfg : Config) (pname : List Char) (ep : Episode)
    (index total : Nat) : List Char × List Char :=
  (batchFolderName pname index total,
    episodeFilename cfg.maxFilenameLength (effTitle ep index) index total)

/-- filepath.with_suffix('.tmp.mp3') for a filename ending in ".mp3". -/
def tmpNameOf (fname : List Char) : List Char :=
  fname.take (fname.length - 4) ++ ".tmp.mp3".data

/-- download_episode.  Returns (result, filesystem, number of network
fetches performed). -/
def downloadEpisode (cfg : Config) (pname : List Char) (ep : Episode)
    (index total : Nat) (orc : Oracle) (fs : FS) : DLResult × FS × Nat :=
  match findEnclosure ep with
  | none => (.noEnclosure, fs, 0)
  | some _ =>
    let title := effTitle ep index
    let dir := batchFolderName pname index total
    let fs1 := fs.mkdirP dir
    let fname := episodeFilename cfg.maxFilenameLength title index total
    let path := (dir, fname)
    if (fs1.files path).isSome then
      (.done index title true "skipped".data, fs1, 0)
    else
      match orc.net with
      | .err msg pb =>
        let fs2 := match pb with
          | none => fs1
          | some b => fs1.write path b
        let fs3 := if (fs2.files path).isSome then fs2.removeFile path else fs2
        (.done index title false msg, fs3, 1)
      | .ok body =>
        let fs2 := fs1.write path body
        if cfg.convert then
          let tmp := (dir, tmpNameOf fname)
          if orc.convertOk then
            let fs3 := fs2.write tmp orc.convertedBody
            let fs4 := fs3.removeFile path
            let fs5 := (fs4.removeFile tmp).write path orc.convertedBody
            (.done index title true "downloaded".data, fs5, 1)
          else
            let fs3 := if orc.failedTempLeft then fs2.write tmp orc.convertedBody else fs2
            let fs4 := if (fs3.files tmp).isSome then fs3.removeFile tmp else fs3
            (.done index title true "downloaded".data, fs4, 1)
        else (.done index title true "downloaded".data, fs2, 1)

/-- The sequential fold of per-episode jobs (episode list, 1-based starting
ordinal, filesystem). -/
def runJobs (cfg : Config) (pname : List Char) (orcs : Nat → Oracle) (total : Nat) :
    List Episode → Nat → FS → List DLResult × FS × Nat
  | [], _, fs => ([], fs, 0)
  | ep :: rest, i, fs =>
    let r := downloadEpisode cfg pname ep i total (orcs i) fs
    let rest2 := runJobs cfg pname orcs total rest (i + 1) r.2.1
    (r.1 :: rest2.1, rest2.2.1, r.2.2 + rest2.2.2)

/-- entries[:max_episodes] reversed, so that ordinal 1 is the oldest
retained episode. -/
def retainedEpisodes (entries : List Episode) (maxEpisodes : Nat) : List Episode :=
  (entries.take maxEpisodes).reverse

inductive RunEvent where
  | job (r : DLResult)
  | indexWritten (dir : List Char)
deriving DecidableEq

/-- The index.md content is irrelevant to the claims; modelled as the feed
title heading. -/
def indexContent (feedTitle : List Char) : List Char := "# ".data ++ feedTitle

/-- How a run terminates: download_episodes returns a bool, or an exception
escapes it (the FileNotFoundError raised by save_index's open when the
batch-0 directory does not exist). -/
inductive RunOutcome where
  | finished (ret : Bool)
  | crashed
deriving DecidableEq

/-- save_index: opens index.md in _get_batch_folder(1, total) for writing.
open(..., 'w') raises FileNotFoundError (modelled as none) when that
directory does not exist — directories are only ever created inside
download_episode, after the enclosure check. -/
def saveIndexModel (pname feedTitle : List Char) (total : Nat) (fs : FS) :
    Option (FS × List Char) :=
  if fs.dirs (batchFolderName pname 1 total) = true then
    some (fs.write (batchFolderName pname 1 total, "index.md".data)
      (indexContent feedTitle), batchFolderName pname 1 total)
  else none

/-- download_episodes: returns False when the full entries list is empty
(line 517 guards feed_data.entries, before the [:max_episodes] truncation);
else runs all jobs over the retained list, then calls save_index exactly
once — which either writes the index and lets the function return True, or
raises FileNotFoundError, which escapes as a crash.  Output:
(outcome, ordered event list, filesystem, total fetches). -/
def downloadEpisodesModel (cfg : Config) (pname feedTitle : List Char)
    (orcs : Nat → Oracle) (entries : List Episode) (fs : FS) :
    RunOutcome × List RunEvent × FS × Nat :=
  if entries.isEmpty then (.finished false, [], fs, 0)
  else
    match saveIndexModel pname feedTitle
      (retainedEpisodes entries cfg.maxEpisodes).length
      (runJobs cfg pname orcs (retainedEpisodes entries cfg.maxEpisodes).length
        (retainedEpisodes entries cfg.maxEpisodes) 1 fs).2.1 with
    | some idx =>
      (.finished true,
        (runJobs cfg pname orcs (retainedEpisodes entries cfg.maxEpisodes).length
          (retainedEpisodes entries cfg.maxEpisodes) 1 fs).1.map RunEvent.job ++
          [RunEvent.indexWritten idx.2],
        idx.1,
        (runJobs cfg pname orcs (retainedEpisodes entries cfg.maxEpisodes).length
          (retainedEpisodes entries cfg.maxEpisodes) 1 fs).2.2)
    | none =>
      (.crashed,
        (runJobs cfg pname orcs (retainedEpisodes entries cfg.maxEpisodes).length
          (retainedEpisodes entries cfg.maxEpisodes) 1 fs).1.map RunEvent.job,
        (runJobs cfg pname orcs (retainedEpisodes entries cfg.maxEpisodes).length
          (retainedEpisodes entries cfg.maxEpisodes) 1 fs).2.1,
        (runJobs cfg pname orcs (retainedEpisodes entries cfg.maxEpisodes).length
          (retainedEpisodes entries cfg.maxEpisodes) 1 fs).2.2)

/-- fetch_feed: feedparser.parse only raises in exceptional cases (modelled
by the flag); bozo feeds merely warn and still return True. -/
def fetchFeedModel (parseRaises : Bool) : Bool := !parseRaises

/-- run: fetch feed, then download_episodes (whose exceptions propagate). -/
def runModel (parseRaises : Bool) (cfg : Config) (pname feedTitle : List Char)
    (orcs : Nat → Oracle) (entries : List Episode) (fs : FS) : RunOutcome :=
  if fetchFeedModel parseRaises = true then
    (downloadEpisodesModel cfg pname feedTitle orcs entries fs).1
  else .finished false

/-- main: sys.exit(1) when run() returned False; an uncaught exception makes
the interpreter exit 1 as well; otherwise exit 0. -/
def mainExitCode (parseRaises : Bool) (cfg : Config) (pname feedTitle : List Char)
    (orcs : Nat → Oracle) (entries : List Episode) (fs : FS) : Nat :=
  match runModel parseRaises cfg pname feedTitle orcs entries fs with
  | .finished true => 0
  | .finished false => 1
  | .crashed => 1

structure RunCounts where
  successCount : Nat
  downloadCount : Nat
  skipCount : Nat
deriving DecidableEq

/-- The result-aggregation loop in download_episodes.  A noEnclosure result
is the bare False returned by download_episode: the tuple unpacking
"index, title, success, status = result" raises TypeError, which the
surrounding except clause swallows as a task error, so no counter is
touched. -/
def tallyResult (acc : RunCounts) (r : DLResult) : RunCounts :=
  match r with
  | .noEnclosure => acc
  | .done _ _ success status =>
    if success then
      { successCount := acc.successCount + 1,
        downloadCount := acc.downloadCount +
          (if status = "downloaded".data then 1 else 0),
        skipCount := acc.skipCount +
          (if status = "downloaded".data then 0
           else if status = "skipped".data then 1 else 0) }
    else acc

def tallyAll (rs : List DLResult) : RunCounts :=
  rs.foldl tallyResult ⟨0, 0, 0⟩

/-- The printed final summary: (Downloaded, Skipped, Failed) =
(download_count, success_count - download_count, total_count - success_count). -/
def runSummary (total : Nat) (c : RunCounts) : Nat × Nat × Nat :=
  (c.downloadCount, c.successCount - c.downloadCount, total - c.successCount)

def jobResults (evs : List RunEvent) : List DLResult :=
  evs.filterMap (fun e => match e with
    | .job r => some r
    | .indexWritten _ => none)

theorem saveIndexModel_pos (pname feedTitle : List Char) (total : Nat) (fs : FS)
    (h : fs.dirs (batchFolderName pname 1 total) = true) :
    saveIndexModel pname feedTitle total fs =
      some (fs.write (batchFolderName pname 1 total, "index.md".data)
        (indexContent feedTitle), batchFolderName pname 1 total) := by
  unfold saveIndexModel
  rw [if_pos h]

theorem saveIndexModel_neg (pname feedTitle : List Char) (total : Nat) (fs : FS)
    (h : ¬ fs.dirs (batchFolderName pname 1 total) = true) :
    saveIndexModel pname feedTitle total fs = none := by
  unfold saveIndexModel
  rw [if_neg h]

/-! ## C5: skip-if-exists and idempotence -/

theorem downloadEpisode_skip (cfg : Config) (pname : List Char) (ep : Episode)
    (index total : Nat) (orc : Oracle) (fs : FS)
    (hE : hasAudioEnclosure ep = true)
    (hX : (fs.files (targetPathOf cfg pname ep index total)).isSome = true) :
    downloadEpisode cfg pname ep index total orc fs =
      (DLResult.done index (effTitle ep index) true "skipped".data,
        fs.mkdirP (batchFolderName pname index total), 0) := by
  cases hfe : findEnclosure ep with
  | none => rw [hasAudioEnclosure, hfe] at hE; simp at hE
  | some l =>
    show (match findEnclosure ep with
      | none => (DLResult.noEnclosure, fs, 0)
      | some _ => _) = _
    rw [hfe]
    show (if ((fs.mkdirP (batchFolderName pname index total)).files
        (batchFolderName pname index total,
          episodeFilename cfg.maxFilenameLength (effTitle ep index) index total)).isSome
      then _ else _) = _
    rw [if_pos (show ((fs.mkdirP (batchFolderName pname index total)).files
      (batchFolderName pname index total,
        episodeFilename cfg.maxFilenameLength (effTitle ep index) index total)).isSome = true
      from hX)]

/-- C5: when the computed target file of an episode already exists,
download_episode performs no network fetch, leaves every existing file
unmodified and returns a successful skipped outcome; hence running the jobs
of a plan against a directory already containing all expected files yields
all-skipped outcomes, zero fetches, and an unchanged file store. -/
theorem c5_skip_if_exists (cfg : Config) (pname : List Char) (orcs : Nat → Oracle)
    (total : Nat) : ∀ (eps : List Episode) (start : Nat) (fs : FS),
    (∀ k, (hk : k < eps.length) →
      hasAudioEnclosure (eps.get ⟨k, hk⟩) = true ∧
      (fs.files (targetPathOf cfg pname (eps.get ⟨k, hk⟩) (start + k) total)).isSome = true) →
    (∀ r ∈ (runJobs cfg pname orcs total eps start fs).1,
      ∃ i t, r = DLResult.done i t true "skipped".data) ∧
    (runJobs cfg pname orcs total eps start fs).2.2 = 0 ∧
    (∀ p, (runJobs cfg pname orcs total eps start fs).2.1.files p = fs.files p) := by
  intro eps
  induction eps with
  | nil =>
    intro start fs _
    refine ⟨by simp [runJobs], rfl, fun p => rfl⟩
  | cons ep rest ih =>
    intro start fs h
    have h0 := h 0 (by simp)
    simp only [List.get] at h0
    have hskip := downloadEpisode_skip cfg pname ep start total (orcs start) fs
      h0.1 (by simpa using h0.2)
    have hrest := ih (start + 1) (fs.mkdirP (batchFolderName pname start total)) (by
      intro k hk
      have hk1 : k + 1 < (ep :: rest).length := by simpa using Nat.succ_lt_succ hk
      have := h (k + 1) hk1
      simp only [List.get] at this
      refine ⟨this.1, ?_⟩
      have harr : start + 1 + k = start + (k + 1) := by omega
      rw [harr]
      exact this.2)
    simp only [runJobs]
    rw [hskip]
    refine ⟨?_, ?_, ?_⟩
    · intro r hr
      rcases List.mem_cons.mp hr with h1 | h1
      · exact ⟨start, effTitle ep start, h1⟩
      · exact hrest.1 r h1
    · show 0 + (runJobs cfg pname orcs total rest (start + 1) _).2.2 = 0
      rw [hrest.2.1]
    · intro p
      exact hrest.2.2 p

theorem c5_skip_if_exists_witness :
    ((∀ k, (hk : k < ([⟨some ('A' :: []), [⟨"audio/mpeg".data, "u".data⟩]⟩] : List Episode).length) →
      hasAudioEnclosure (([⟨some ('A' :: []), [⟨"audio/mpeg".data, "u".data⟩]⟩] : List Episode).get ⟨k, hk⟩) = true ∧
      ((FS.mk (fun _ => false)
        (fun p => if p = (('P' :: []), '1' :: '_' :: 'A' :: '.' :: 'm' :: 'p' :: '3' :: []) then some [] else none)).files
        (targetPathOf (Config.mk none false 30) ('P' :: [])
          (([⟨some ('A' :: []), [⟨"audio/mpeg".data, "u".data⟩]⟩] : List Episode).get ⟨k, hk⟩) (1 + k) 1)).isSome = true) ∧
    (∀ r ∈ (runJobs (Config.mk none false 30) ('P' :: [])
        (fun _ => Oracle.mk (NetResult.ok []) false [] false) 1
        [⟨some ('A' :: []), [⟨"audio/mpeg".data, "u".data⟩]⟩] 1
        (FS.mk (fun _ => false)
          (fun p => if p = (('P' :: []), '1' :: '_' :: 'A' :: '.' :: 'm' :: 'p' :: '3' :: []) then some [] else none))).1,
      ∃ i t, r = DLResult.done i t true "skipped".data)) := by
  have h := c5_skip_if_exists (Config.mk none false 30) ('P' :: [])
    (fun _ => Oracle.mk (NetResult.ok []) false [] false) 1
    [⟨some ('A' :: []), [⟨"audio/mpeg".data, "u".data⟩]⟩] 1
    (FS.mk (fun _ => false)
      (fun p => if p = (('P' :: []), '1' :: '_' :: 'A' :: '.' :: 'm' :: 'p' :: '3' :: []) then some [] else none))
    (by decide)
  exact ⟨by decide, h.1⟩

/-! ## C6: failure cleanup -/

/-- C6: whenever the download of an episode fails (any transfer error,
whether before the file was opened or mid-stream), the partially written
file at the target path is deleted and the job's outcome is failed; no
artifact remains at the target path. -/
theorem c6_failure_cleanup (cfg : Config) (pname : List Char) (ep : Episode)
    (index total : Nat) (orc : Oracle) (fs : FS) (msg : List Char)
    (pb : Option (List Char))
    (hE : hasAudioEnclosure ep = true)
    (hN : orc.net = NetResult.err msg pb)
    (hX : fs.files (targetPathOf cfg pname ep index total) = none) :
    (downloadEpisode cfg pname ep index total orc fs).1 =
      DLResult.done index (effTitle ep index) false msg ∧
    (downloadEpisode cfg pname ep index total orc fs).2.1.files
      (targetPathOf cfg pname ep index total) = none := by
  cases hfe : findEnclosure ep with
  | none => rw [hasAudioEnclosure, hfe] at hE; simp at hE
  | some l =>
    have hstep : downloadEpisode cfg pname ep index total orc fs =
        (let fs1 := fs.mkdirP (batchFolderName pname index total)
         let path := targetPathOf cfg pname ep index total
         let fs2 := match pb with
           | none => fs1
           | some b => fs1.write path b
         let fs3 := if (fs2.files path).isSome then fs2.removeFile path else fs2
         (DLResult.done index (effTitle ep index) false msg, fs3, 1)) := by
      show (match findEnclosure ep with
        | none => (DLResult.noEnclosure, fs, 0)
        | some _ => _) = _
      rw [hfe]
      show (if ((fs.mkdirP (batchFolderName pname index total)).files
          (batchFolderName pname index total,
            episodeFilename cfg.maxFilenameLength (effTitle ep index) index total)).isSome
        then _ else _) = _
      rw [if_neg (by
        show ¬(fs.files (targetPathOf cfg pname ep index total)).isSome = true
        rw [hX]
        simp)]
      show (match orc.net with
        | NetResult.err msg pb => _
        | NetResult.ok body => _) = _
      rw [hN]
      rfl
    rw [hstep]
    cases pb with
    | none =>
      refine ⟨rfl, ?_⟩
      show (if ((fs.mkdirP _).files (targetPathOf cfg pname ep index total)).isSome
        then _ else FS.mkdirP fs _).files (targetPathOf cfg pname ep index total) = none
      rw [if_neg (by
        show ¬(fs.files (targetPathOf cfg pname ep index total)).isSome = true
        rw [hX]; simp)]
      exact hX
    | some b =>
      refine ⟨rfl, ?_⟩
      have hw : (((fs.mkdirP (batchFolderName pname index total)).write
          (targetPathOf cfg pname ep index total) b).files
          (targetPathOf cfg pname ep index total)).isSome = true := by
        show ((if (targetPathOf cfg pname ep index total) =
          (targetPathOf cfg pname ep index total) then some b else _)).isSome = true
        rw [if_pos rfl]
        rfl
      show (if _ then FS.removeFile _ _ else _).files _ = none
      rw [if_pos hw]
      show (if (targetPathOf cfg pname ep index total) =
        (targetPathOf cfg pname ep index total) then none else _) = none
      rw [if_pos rfl]

theorem c6_failure_cleanup_witness :
    hasAudioEnclosure ⟨some ('A' :: []), [⟨"audio/mpeg".data, "u".data⟩]⟩ = true ∧
    (Oracle.mk (NetResult.err ('e' :: []) (some ('x' :: []))) false [] false).net =
      NetResult.err ('e' :: []) (some ('x' :: [])) ∧
    ((downloadEpisode (Config.mk none false 30) ('P' :: [])
        ⟨some ('A' :: []), [⟨"audio/mpeg".data, "u".data⟩]⟩ 1 1
        (Oracle.mk (NetResult.err ('e' :: []) (some ('x' :: []))) false [] false)
        (FS.mk (fun _ => false) (fun _ => none))).1 =
      DLResult.done 1 ('A' :: []) false ('e' :: []) ∧
    (downloadEpisode (Config.mk none false 30) ('P' :: [])
        ⟨some ('A' :: []), [⟨"audio/mpeg".data, "u".data⟩]⟩ 1 1
        (Oracle.mk (NetResult.err ('e' :: []) (some ('x' :: []))) false [] false)
        (FS.mk (fun _ => false) (fun _ => none))).2.1.files
      (targetPathOf (Config.mk none false 30) ('P' :: [])
        ⟨some ('A' :: []), [⟨"audio/mpeg".data, "u".data⟩]⟩ 1 1) = none) :=
  ⟨by decide, by decide,
    c6_failure_cleanup (Config.mk none false 30) ('P' :: [])
      ⟨some ('A' :: []), [⟨"audio/mpeg".data, "u".data⟩]⟩ 1 1
      (Oracle.mk (NetResult.err ('e' :: []) (some ('x' :: []))) false [] false)
      (FS.mk (fun _ => false) (fun _ => none)) ('e' :: []) (some ('x' :: []))
      (by decide) (by decide) (by decide)⟩

/-! ## C7: missing audio enclosure -/

/-- C7 (the code evaluated at the failing input): for a feed whose only
episode has no audio/ enclosure (the podcast directory pre-existing, as on a
re-run, so that save_index can succeed), the run completes (returns True),
performs no fetch and produces no episode file, and the job yields the bare
False (noEnclosure) — but the aggregation loop's tuple unpacking fails on it
(TypeError swallowed as a task error), so the summary tallies the episode
under Failed, not Skipped: (Downloaded, Skipped, Failed) = (0, 0, 1),
contradicting the claim that it is counted as skipped. -/
theorem c7_no_enclosure_tallied_failed :
    (let out := downloadEpisodesModel (Config.mk none false 30) ('P' :: [])
      ('F' :: []) (fun _ => Oracle.mk (NetResult.ok []) false [] false)
      [⟨some ('T' :: []), [⟨"text/html".data, "u".data⟩]⟩]
      (FS.mk (fun _ => true) (fun _ => none))
    out.1 = RunOutcome.finished true ∧
    out.2.1 = [RunEvent.job DLResult.noEnclosure,
      RunEvent.indexWritten ('P' :: [])] ∧
    runSummary 1 (tallyAll (jobResults out.2.1)) = (0, 0, 1) ∧
    out.2.2.2 = 0 ∧
    out.2.2.1.files (('P' :: []), episodeFilename none ('T' :: []) 1 1) = none) := by
  decide

/-! ## C8: exit status -/

/-- C8 counterexample: a feed that is fetched and parsed successfully but
contains no episodes makes run() return False, so the process exits 1 — the
claim says every run other than a fetch/parse failure exits zero. -/
theorem c8_exit_code_counterexample :
    mainExitCode false (Config.mk none false 30) ('P' :: []) ('F' :: [])
      (fun _ => Oracle.mk (NetResult.ok []) false [] false) []
      (FS.mk (fun _ => false) (fun _ => none)) = 1 := by decide

/-- C8 (amended): the exit status is zero iff the feed was fetched and
parsed, the feed's entry list is nonempty, and after all jobs the batch-0
directory exists (it pre-existed, or some retained batch-0 episode with an
audio enclosure created it), so that save_index's open succeeds; in every
other case — feed failure, empty feed, or the FileNotFoundError escaping
save_index — the exit status is non-zero.  Per-episode download outcomes
never influence the exit status: directories are created before the fetch,
so the oracle appears only where it cannot change the iff. -/
theorem c8_exit_code_amended (parseRaises : Bool) (cfg : Config)
    (pname feedTitle : List Char) (orcs : Nat → Oracle) (entries : List Episode)
    (fs : FS) :
    mainExitCode parseRaises cfg pname feedTitle orcs entries fs = 0 ↔
      (parseRaises = false ∧ entries ≠ [] ∧
        (runJobs cfg pname orcs (retainedEpisodes entries cfg.maxEpisodes).length
            (retainedEpisodes entries cfg.maxEpisodes) 1 fs).2.1.dirs
          (batchFolderName pname 1
            (retainedEpisodes entries cfg.maxEpisodes).length) = true) := by
  unfold mainExitCode runModel fetchFeedModel downloadEpisodesModel saveIndexModel
  by_cases hp : parseRaises = true
  · simp [hp]
  · have hp2 : parseRaises = false := by
      revert hp; cases parseRaises <;> simp
    by_cases he : entries.isEmpty = true
    · simp [hp2, he, List.isEmpty_iff.mp he]
    · have he2 : entries ≠ [] := by
        intro h0
        exact he (by rw [h0]; rfl)
      by_cases hd : (runJobs cfg pname orcs
          (retainedEpisodes entries cfg.maxEpisodes).length
          (retainedEpisodes entries cfg.maxEpisodes) 1 fs).2.1.dirs
          (batchFolderName pname 1
            (retainedEpisodes entries cfg.maxEpisodes).length) = true
      · simp [hp2, he, he2, hd]
      · simp [hp2, he, he2, hd]

/-! ## C10: index.md goes to batch 0 only, once, after all jobs -/

theorem episodeFilename_getLast (mfl : Option Nat) (t : List Char) (i total : Nat) :
    (episodeFilename mfl t i total).getLast? = some '3' := by
  simp only [episodeFilename]
  rw [List.getLast?_append_of_ne_nil _ (by simp : (".mp3".data : List Char) ≠ [])]
  rfl

theorem tmpNameOf_getLast (fname : List Char) :
    (tmpNameOf fname).getLast? = some '3' := by
  unfold tmpNameOf
  rw [List.getLast?_append_of_ne_nil _ (by simp : (".tmp.mp3".data : List Char) ≠ [])]
  rfl

theorem FS.write_files_ne (fs : FS) (q p : List Char × List Char)
    (c : List Char) (h : p ≠ q) : (fs.write q c).files p = fs.files p := by
  show (if p = q then some c else fs.files p) = fs.files p
  rw [if_neg h]

theorem FS.removeFile_files_ne (fs : FS) (q p : List Char × List Char)
    (h : p ≠ q) : (fs.removeFile q).files p = fs.files p := by
  show (if p = q then none else fs.files p) = fs.files p
  rw [if_neg h]

theorem downloadEpisode_preserves_d (cfg : Config) (pname : List Char)
    (ep : Episode) (index total : Nat) (orc : Oracle) (fs : FS)
    (p : List Char × List Char) (hp : p.2.getLast? = some 'd') :
    (downloadEpisode cfg pname ep index total orc fs).2.1.files p = fs.files p := by
  have hne : p ≠ (batchFolderName pname index total,
      episodeFilename cfg.maxFilenameLength (effTitle ep index) index total) := by
    intro he
    rw [he] at hp
    rw [episodeFilename_getLast] at hp
    simp at hp
  have hnetmp : p ≠ (batchFolderName pname index total,
      tmpNameOf (episodeFilename cfg.maxFilenameLength (effTitle ep index) index total)) := by
    intro he
    rw [he] at hp
    rw [tmpNameOf_getLast] at hp
    simp at hp
  unfold downloadEpisode
  cases findEnclosure ep with
  | none => rfl
  | some l =>
    simp only
    split
    · rfl
    · cases orc.net with
      | err msg pb =>
        cases pb with
        | none =>
          simp only
          split
          · exact FS.removeFile_files_ne _ _ _ hne
          · rfl
        | some b =>
          simp only
          split
          · rw [FS.removeFile_files_ne _ _ _ hne, FS.write_files_ne _ _ _ _ hne]
            rfl
          · exact FS.write_files_ne _ _ _ _ hne
      | ok body =>
        simp only
        split
        · split
          · rw [FS.write_files_ne _ _ _ _ hne, FS.removeFile_files_ne _ _ _ hnetmp,
              FS.removeFile_files_ne _ _ _ hne, FS.write_files_ne _ _ _ _ hnetmp,
              FS.write_files_ne _ _ _ _ hne]
            rfl
          · split
            · split
              · rw [FS.removeFile_files_ne _ _ _ hnetmp, FS.write_files_ne _ _ _ _ hnetmp,
                  FS.write_files_ne _ _ _ _ hne]
                rfl
              · rw [FS.write_files_ne _ _ _ _ hnetmp, FS.write_files_ne _ _ _ _ hne]
                rfl
            · split
              · rw [FS.removeFile_files_ne _ _ _ hnetmp, FS.write_files_ne _ _ _ _ hne]
                rfl
              · exact FS.write_files_ne _ _ _ _ hne
        · exact FS.write_files_ne _ _ _ _ hne

theorem runJobs_preserves_d (cfg : Config) (pname : List Char) (orcs : Nat → Oracle)
    (total : Nat) : ∀ (eps : List Episode) (start : Nat) (fs : FS)
    (p : List Char × List Char), p.2.getLast? = some 'd' →
    (runJobs cfg pname orcs total eps start fs).2.1.files p = fs.files p := by
  intro eps
  induction eps with
  | nil => intro start fs p _; rfl
  | cons ep rest ih =>
    intro start fs p hp
    show (runJobs cfg pname orcs total rest (start + 1)
      (downloadEpisode cfg pname ep start total (orcs start) fs).2.1).2.1.files p = _
    rw [ih (start + 1) _ p hp]
    exact downloadEpisode_preserves_d cfg pname ep start total (orcs start) fs p hp

/-- C10: for runs with more than 100 retained episodes, the event trace of
download_episodes is all episode jobs followed by at most one index write —
exactly one, into the batch-0 folder 0_podcast, when save_index's open
succeeds because that folder exists after the jobs, and none when it raises
FileNotFoundError instead; batch folders of ordinals 101 and above are
distinct from the batch-0 folder, and in either case the final filesystem
holds index.md only (possibly) in the batch-0 folder: any other directory's
index.md entry is exactly as it was before the run. -/
theorem c10_index_only_batch0 (cfg : Config) (pname feedTitle : List Char)
    (orcs : Nat → Oracle) (entries : List Episode) (fs : FS)
    (h : 100 < (retainedEpisodes entries cfg.maxEpisodes).length) :
    (downloadEpisodesModel cfg pname feedTitle orcs entries fs).2.1 =
      (runJobs cfg pname orcs (retainedEpisodes entries cfg.maxEpisodes).length
        (retainedEpisodes entries cfg.maxEpisodes) 1 fs).1.map RunEvent.job ++
      (if (runJobs cfg pname orcs (retainedEpisodes entries cfg.maxEpisodes).length
            (retainedEpisodes entries cfg.maxEpisodes) 1 fs).2.1.dirs
          (batchFolderName pname 1
            (retainedEpisodes entries cfg.maxEpisodes).length) = true
       then [RunEvent.indexWritten (batchFolderName pname 1
         (retainedEpisodes entries cfg.maxEpisodes).length)]
       else []) ∧
    batchFolderName pname 1 (retainedEpisodes entries cfg.maxEpisodes).length =
      '0' :: '_' :: pname ∧
    (∀ i, 101 ≤ i →
      batchFolderName pname i (retainedEpisodes entries cfg.maxEpisodes).length ≠
      batchFolderName pname 1 (retainedEpisodes entries cfg.maxEpisodes).length) ∧
    (∀ d, d ≠ batchFolderName pname 1 (retainedEpisodes entries cfg.maxEpisodes).length →
      (downloadEpisodesModel cfg pname feedTitle orcs entries fs).2.2.1.files
        (d, "index.md".data) = fs.files (d, "index.md".data)) := by
  have hent : entries.isEmpty ≠ true := by
    intro h0
    rw [List.isEmpty_iff.mp h0] at h
    simp [retainedEpisodes] at h
  have h100 : ¬ (retainedEpisodes entries cfg.maxEpisodes).length ≤ 100 := by omega
  have hbatch1 : batchFolderName pname 1 (retainedEpisodes entries cfg.maxEpisodes).length =
      '0' :: '_' :: pname := by
    unfold batchFolderName
    rw [if_neg h100]
    rfl
  have hdistinct : ∀ i, 101 ≤ i →
      batchFolderName pname i (retainedEpisodes entries cfg.maxEpisodes).length ≠
      batchFolderName pname 1 (retainedEpisodes entries cfg.maxEpisodes).length := by
    intro i hi hEq
    unfold batchFolderName at hEq
    rw [if_neg h100, if_neg h100] at hEq
    have hb := pyNatStr_inj _ _ (append_cancel_suffix hEq)
    unfold batchNumber at hb
    omega
  by_cases hd : (runJobs cfg pname orcs (retainedEpisodes entries cfg.maxEpisodes).length
      (retainedEpisodes entries cfg.maxEpisodes) 1 fs).2.1.dirs
      (batchFolderName pname 1 (retainedEpisodes entries cfg.maxEpisodes).length) = true
  · have hmod : downloadEpisodesModel cfg pname feedTitle orcs entries fs =
        (.finished true,
          (runJobs cfg pname orcs (retainedEpisodes entries cfg.maxEpisodes).length
            (retainedEpisodes entries cfg.maxEpisodes) 1 fs).1.map RunEvent.job ++
            [RunEvent.indexWritten (batchFolderName pname 1
              (retainedEpisodes entries cfg.maxEpisodes).length)],
          (runJobs cfg pname orcs (retainedEpisodes entries cfg.maxEpisodes).length
            (retainedEpisodes entries cfg.maxEpisodes) 1 fs).2.1.write
            (batchFolderName pname 1 (retainedEpisodes entries cfg.maxEpisodes).length,
              "index.md".data) (indexContent feedTitle),
          (runJobs cfg pname orcs (retainedEpisodes entries cfg.maxEpisodes).length
            (retainedEpisodes entries cfg.maxEpisodes) 1 fs).2.2) := by
      unfold downloadEpisodesModel
      rw [if_neg hent, saveIndexModel_pos _ _ _ _ hd]
    refine ⟨?_, hbatch1, hdistinct, ?_⟩
    · rw [hmod, if_pos hd]
    · intro d hdne
      rw [hmod]
      show ((runJobs cfg pname orcs _ _ 1 fs).2.1.write
        (batchFolderName pname 1 _, "index.md".data) _).files (d, "index.md".data) = _
      rw [FS.write_files_ne _ _ _ _ (by
        intro he
        exact hdne (congrArg Prod.fst he))]
      exact runJobs_preserves_d cfg pname orcs _ _ 1 fs (d, "index.md".data) (by rfl)
  · have hmod : downloadEpisodesModel cfg pname feedTitle orcs entries fs =
        (.crashed,
          (runJobs cfg pname orcs (retainedEpisodes entries cfg.maxEpisodes).length
            (retainedEpisodes entries cfg.maxEpisodes) 1 fs).1.map RunEvent.job,
          (runJobs cfg pname orcs (retainedEpisodes entries cfg.maxEpisodes).length
            (retainedEpisodes entries cfg.maxEpisodes) 1 fs).2.1,
          (runJobs cfg pname orcs (retainedEpisodes entries cfg.maxEpisodes).length
            (retainedEpisodes entries cfg.maxEpisodes) 1 fs).2.2) := by
      unfold downloadEpisodesModel
      rw [if_neg hent, saveIndexModel_neg _ _ _ _ hd]
    refine ⟨?_, hbatch1, hdistinct, ?_⟩
    · rw [hmod, if_neg hd]
      show (runJobs cfg pname orcs _ _ 1 fs).1.map RunEvent.job =
        (runJobs cfg pname orcs _ _ 1 fs).1.map RunEvent.job ++ []
      rw [List.append_nil]
    · intro d hdne
      rw [hmod]
      exact runJobs_preserves_d cfg pname orcs _ _ 1 fs (d, "index.md".data) (by rfl)

theorem c10_index_only_batch0_witness :
    (100 < (retainedEpisodes (List.replicate 101 ⟨some ('T' :: []), []⟩) 101).length) ∧
    ((downloadEpisodesModel (Config.mk none false 101) ('P' :: []) ('F' :: [])
        (fun _ => Oracle.mk (NetResult.ok []) false [] false)
        (List.replicate 101 ⟨some ('T' :: []), []⟩)
        (FS.mk (fun _ => true) (fun _ => none))).2.1 =
      (runJobs (Config.mk none false 101) ('P' :: [])
        (fun _ => Oracle.mk (NetResult.ok []) false [] false)
        (retainedEpisodes (List.replicate 101 ⟨some ('T' :: []), []⟩) 101).length
        (retainedEpisodes (List.replicate 101 ⟨some ('T' :: []), []⟩) 101) 1
        (FS.mk (fun _ => true) (fun _ => none))).1.map RunEvent.job ++
      (if (runJobs (Config.mk none false 101) ('P' :: [])
            (fun _ => Oracle.mk (NetResult.ok []) false [] false)
            (retainedEpisodes (List.replicate 101 ⟨some ('T' :: []), []⟩) 101).length
            (retainedEpisodes (List.replicate 101 ⟨some ('T' :: []), []⟩) 101) 1
            (FS.mk (fun _ => true) (fun _ => none))).2.1.dirs
          (batchFolderName ('P' :: []) 1
            (retainedEpisodes (List.replicate 101 ⟨some ('T' :: []), []⟩) 101).length) = true
       then [RunEvent.indexWritten (batchFolderName ('P' :: []) 1
         (retainedEpisodes (List.replicate 101 ⟨some ('T' :: []), []⟩) 101).length)]
       else [])) := by
  have h := c10_index_only_batch0 (Config.mk none false 101) ('P' :: []) ('F' :: [])
    (fun _ => Oracle.mk (NetResult.ok []) false [] false)
    (List.replicate 101 ⟨some ('T' :: []), []⟩)
    (FS.mk (fun _ => true) (fun _ => none)) (by decide)
  exact ⟨by decide, h.1⟩

/-! ## C9: manifest round-trip (Manifest Store)

The manifest load/save code is not present under src/ (only the test suite
references load_downloaded_items / get_readme_path), so this section is
modelled from the spec (sections 4.3 and 6): save writes feed metadata lines
and then one checklist line per in-scope episode, "- [x] title (published)"
when completed and "- [ ] title (published)" otherwise; load returns the set
of completed titles, and a missing file yields the empty set.  A text file
is modelled as its list of lines. -/

structure ManifestEpisode where
  title : List Char
  published : List Char
  completed : Bool
deriving DecidableEq

/-- Modelled from the spec: the checklist line of one episode,
`- [x] {title} ({published})` or `- [ ] {title} ({published})`. -/
def manifestLine (e : ManifestEpisode) : List Char :=
  (if e.completed then "- [x] ".data else "- [ ] ".data) ++
    (e.title ++ ' ' :: '(' :: (e.published ++ [')']))

/-- Modelled from the spec: the persisted manifest as its list of lines —
feed-title heading, feed URL, timestamp, then the checklist. -/
def manifestLines (feedTitle feedUrl ts : List Char)
    (eps : List ManifestEpisode) : List (List Char) :=
  ('#' :: ' ' :: feedTitle) :: ("Feed: ".data ++ feedUrl) ::
    ("Updated: ".data ++ ts) :: eps.map manifestLine

/-- Scan a reversed checklist-line body for the rightmost " (" separator,
returning (title, published). -/
def scanPub (acc : List Char) : List Char → Option (List Char × List Char)
  | [] => none
  | [_] => none
  | c :: d :: rest =>
    if c = '(' ∧ d = ' ' then some (rest.reverse, acc.reverse)
    else scanPub (acc ++ [c]) (d :: rest)

/-- Modelled from the spec: parse one manifest line, extracting the title
when it is a completed checklist line. -/
def parseCompletedLine (l : List Char) : Option (List Char) :=
  if l.take 6 = "- [x] ".data then
    let body := l.drop 6
    if body.getLast? = some ')' then
      (scanPub [] body.dropLast.reverse).map Prod.fst
    else none
  else none

/-- Modelled from the spec: load — a missing file yields the empty set,
else the titles of the completed checklist lines. -/
def loadManifest (file : Option (List (List Char))) : List (List Char) :=
  match file with
  | none => []
  | some lines => lines.filterMap parseCompletedLine

/-- Modelled from the spec: save into a directory-keyed store. -/
def saveManifestFS (store : List Char → Option (List (List Char)))
    (dir feedTitle feedUrl ts : List Char) (eps : List ManifestEpisode) :
    List Char → Option (List (List Char)) :=
  fun d => if d = dir then some (manifestLines feedTitle feedUrl ts eps) else store d

def loadManifestFS (store : List Char → Option (List (List Char)))
    (dir : List Char) : List (List Char) :=
  loadManifest (store dir)

theorem scanPub_spec : ∀ (r acc ts : List Char), adjFree '(' ' ' r = true →
    scanPub acc (r ++ '(' :: ' ' :: ts) = some (ts.reverse, (acc ++ r).reverse) := by
  intro r
  induction r with
  | nil =>
    intro acc ts _
    show scanPub acc ('(' :: ' ' :: ts) = _
    simp [scanPub]
  | cons c r2 ihr =>
    intro acc ts hadj
    show scanPub acc (c :: (r2 ++ '(' :: ' ' :: ts)) = _
    obtain ⟨d, rest2, hr2⟩ : ∃ d rest2, r2 ++ '(' :: ' ' :: ts = d :: rest2 := by
      cases hE : r2 ++ '(' :: ' ' :: ts with
      | nil => simp at hE
      | cons d r => exact ⟨d, r, rfl⟩
    have hnotsep : ¬(c = '(' ∧ d = ' ') := by
      cases r2 with
      | nil =>
        have hd : d = '(' := by
          have h2 : ('(' :: ' ' :: ts : List Char) = d :: rest2 := by simpa using hr2
          exact (List.cons.inj h2).1.symm
        rintro ⟨_, hsp⟩
        rw [hd] at hsp
        exact absurd hsp (by decide)
      | cons e r3 =>
        have hd : d = e := by
          have h2 : (e :: (r3 ++ '(' :: ' ' :: ts) : List Char) = d :: rest2 := by
            simpa using hr2
          exact (List.cons.inj h2).1.symm
        rw [hd]
        exact adjFree_pair hadj
    rw [hr2]
    show (if c = '(' ∧ d = ' ' then some (rest2.reverse, acc.reverse)
      else scanPub (acc ++ [c]) (d :: rest2)) = _
    rw [if_neg hnotsep, ← hr2, ihr (acc ++ [c]) ts (adjFree_tail hadj)]
    simp

theorem parseCompletedLine_completed (e : ManifestEpisode) (hc : e.completed = true)
    (hpub : adjFree '(' ' ' e.published.reverse = true) :
    parseCompletedLine (manifestLine e) = some e.title := by
  unfold manifestLine parseCompletedLine
  rw [hc]
  rw [if_pos (rfl : true = true)]
  have hlen : ("- [x] ".data : List Char).length = 6 := by decide
  have htake := List.take_left ("- [x] ".data : List Char)
    (e.title ++ ' ' :: '(' :: (e.published ++ [')']))
  rw [hlen] at htake
  rw [htake, if_pos rfl]
  have hdrop := List.drop_left ("- [x] ".data : List Char)
    (e.title ++ ' ' :: '(' :: (e.published ++ [')']))
  rw [hlen] at hdrop
  rw [hdrop]
  have hshape : e.title ++ ' ' :: '(' :: (e.published ++ [')']) =
      (e.title ++ ' ' :: '(' :: e.published) ++ [')'] := by
    simp
  rw [hshape]
  show (if ((e.title ++ ' ' :: '(' :: e.published) ++ [')']).getLast? = some ')'
    then Option.map Prod.fst
      (scanPub [] ((e.title ++ ' ' :: '(' :: e.published) ++ [')']).dropLast.reverse)
    else none) = some e.title
  rw [List.getLast?_append_of_ne_nil _ (by simp : ([')'] : List Char) ≠ [])]
  rw [if_pos (by decide : ([')'] : List Char).getLast? = some ')'), List.dropLast_concat]
  have hrev : (e.title ++ ' ' :: '(' :: e.published).reverse =
      e.published.reverse ++ '(' :: ' ' :: e.title.reverse := by
    simp
  rw [hrev, scanPub_spec _ [] _ hpub]
  simp

theorem parseCompletedLine_not_completed (e : ManifestEpisode)
    (hc : e.completed = false) : parseCompletedLine (manifestLine e) = none := by
  unfold manifestLine parseCompletedLine
  rw [hc]
  rw [if_neg (by decide : ¬(false = true))]
  have hlen : ("- [ ] ".data : List Char).length = 6 := by decide
  have htake := List.take_left ("- [ ] ".data : List Char)
    (e.title ++ ' ' :: '(' :: (e.published ++ [')']))
  rw [hlen] at htake
  rw [htake, if_neg (by decide)]

theorem parseCompletedLine_header (l : List Char) (hh : l.head? ≠ some '-') :
    parseCompletedLine l = none := by
  unfold parseCompletedLine
  rw [if_neg]
  intro htake
  cases l with
  | nil => simp at htake
  | cons c cs =>
    have : c = '-' := by
      have h6 : (c :: cs).take 6 = c :: cs.take 5 := rfl
      rw [h6] at htake
      exact (List.cons.inj htake).1
    exact hh (by rw [this]; rfl)

theorem filterMap_parse (eps : List ManifestEpisode)
    (hp : ∀ e ∈ eps, adjFree '(' ' ' e.published.reverse = true) :
    eps.filterMap (fun e => parseCompletedLine (manifestLine e)) =
      (eps.filter (fun e => e.completed)).map (fun e => e.title) := by
  induction eps with
  | nil => rfl
  | cons e rest ih =>
    have he := hp e (List.mem_cons_self _ _)
    have hrest := ih (fun x hx => hp x (List.mem_cons_of_mem _ hx))
    cases hc : e.completed with
    | true =>
      rw [List.filterMap_cons, parseCompletedLine_completed e hc he]
      simp only [List.filter_cons, hc, if_true, List.map_cons]
      rw [hrest]
    | false =>
      rw [List.filterMap_cons, parseCompletedLine_not_completed e hc]
      simp only [List.filter_cons, hc]
      simp only [Bool.false_eq_true, if_false]
      rw [hrest]

/-- C9: saving a manifest recording a set of completed titles into a
directory and loading it back from that directory returns exactly that
completed set; a missing manifest loads as the empty set.  (Spec-modelled:
the manifest store is absent from src/.)  The hypothesis excludes a " ("
sequence inside a published string, which the line format cannot represent
unambiguously. -/
theorem c9_manifest_round_trip (store : List Char → Option (List (List Char)))
    (dir feedTitle feedUrl ts : List Char) (eps : List ManifestEpisode)
    (hp : ∀ e ∈ eps, adjFree '(' ' ' e.published.reverse = true) :
    loadManifestFS (saveManifestFS store dir feedTitle feedUrl ts eps) dir =
      (eps.filter (fun e => e.completed)).map (fun e => e.title) ∧
    (store dir = none → loadManifestFS store dir = []) := by
  constructor
  · unfold loadManifestFS saveManifestFS
    rw [if_pos rfl]
    show (manifestLines feedTitle feedUrl ts eps).filterMap parseCompletedLine = _
    unfold manifestLines
    rw [List.filterMap_cons, parseCompletedLine_header _ (by simp)]
    rw [List.filterMap_cons, parseCompletedLine_header _ (by
      show (('F' :: ('e' :: ('e' :: ('d' :: (':' :: (' ' :: [])))))) ++ feedUrl
        : List Char).head? ≠ some '-'
      simp)]
    rw [List.filterMap_cons, parseCompletedLine_header _ (by
      show (('U' :: ('p' :: ('d' :: ('a' :: ('t' :: ('e' :: ('d' :: (':' :: (' ' :: []))))))))) ++ ts
        : List Char).head? ≠ some '-'
      simp)]
    rw [List.filterMap_map]
    exact filterMap_parse eps hp
  · intro h0
    unfold loadManifestFS
    rw [h0]
    rfl

theorem c9_manifest_round_trip_witness :
    (∀ e ∈ [ManifestEpisode.mk ('X' :: []) [] true,
        ManifestEpisode.mk ('Y' :: []) [] false],
      adjFree '(' ' ' e.published.reverse = true) ∧
    loadManifestFS (saveManifestFS (fun _ => none) ('d' :: []) ('F' :: []) [] []
        [ManifestEpisode.mk ('X' :: []) [] true,
         ManifestEpisode.mk ('Y' :: []) [] false]) ('d' :: []) =
      [('X' :: [])] :=
  ⟨by decide,
    (c9_manifest_round_trip (fun _ => none) ('d' :: []) ('F' :: []) [] []
      [ManifestEpisode.mk ('X' :: []) [] true,
       ManifestEpisode.mk ('Y' :: []) [] false] (by decide)).1⟩

end PodcastDL
